import Mathlib

/-!
# Verification of the ASTC encoder core

A shallow embedding of the per-block codec declared in
`Source/astcenc_internal.h`, together with proofs of the specified
invariants: the BISE integer-sequence codec, the symbolic/physical block
transformer, the block-size-descriptor tables, and the parallel work
splitter.

The repository ships `astcenc_internal.h` only; the inline member
functions in that header (`ParallelManager::get_task_assignment`,
`block_size_descriptor::get_partition_table`, `bilinear_infill`,
`get_quant_level`, ...) are embedded directly from their source.  The
out-of-line functions (`encode_ise`, `decode_ise`,
`get_ise_sequence_bitcount`, `symbolic_to_physical`,
`physical_to_symbolic`, the BSD initialization) are declared but not
defined in the header; their models below follow the specification text
and are marked `Modelled from the spec:` in their doc comments.

Machine integers are modelled as `Nat` (with explicit `% 2^w` where
overflow matters) and bit streams as `List Bool`, least-significant bit
first, matching the little-endian bit order of the ASTC wire format.
-/

namespace Astc

/-! ## Bit string utilities -/

/-- The low `w` bits of `n` as a bit string, least-significant bit first. -/
def natToBits : Nat → Nat → List Bool
  | 0, _ => []
  | w + 1, n => (n % 2 == 1) :: natToBits w (n / 2)

/-- Interpret a bit string (least-significant bit first) as a natural number. -/
def bitsToNat (bs : List Bool) : Nat :=
  bs.foldr (fun b acc => (if b then 1 else 0) + 2 * acc) 0

/-- Extract `w` bits starting at bit offset `off`. -/
def slice (bs : List Bool) (off w : Nat) : List Bool :=
  (bs.drop off).take w

/-- Read the `w`-bit field at bit offset `off` as a number. -/
def readBits (bs : List Bool) (off w : Nat) : Nat :=
  bitsToNat (slice bs off w)

theorem natToBits_length (w n : Nat) : (natToBits w n).length = w := by
  induction w generalizing n with
  | zero => rfl
  | succ w ih => simp [natToBits, ih]

theorem bitsToNat_nil : bitsToNat [] = 0 := rfl

theorem bitsToNat_cons (b : Bool) (bs : List Bool) :
    bitsToNat (b :: bs) = (if b then 1 else 0) + 2 * bitsToNat bs := rfl

theorem bitsToNat_lt (bs : List Bool) : bitsToNat bs < 2 ^ bs.length := by
  induction bs with
  | nil => simp [bitsToNat]
  | cons b bs ih =>
    rw [bitsToNat_cons]
    have : (if b then 1 else 0) ≤ 1 := by cases b <;> simp
    calc (if b then 1 else 0) + 2 * bitsToNat bs
        ≤ 1 + 2 * bitsToNat bs := by omega
      _ < 2 ^ (b :: bs).length := by
          simp only [List.length_cons, pow_succ]
          omega

theorem mod_two_pow_succ (w n : Nat) :
    n % 2 ^ (w + 1) = n % 2 + 2 * (n / 2 % 2 ^ w) := by
  have h3 : (2:Nat) ^ (w + 1) = 2 * 2 ^ w := by ring
  have h1 := Nat.mod_mul_right_div_self n 2 (2 ^ w)
  have h2 := Nat.mod_mul_right_mod n 2 (2 ^ w)
  rw [h3]
  omega

theorem bitsToNat_natToBits (w n : Nat) :
    bitsToNat (natToBits w n) = n % 2 ^ w := by
  induction w generalizing n with
  | zero => simp [natToBits, bitsToNat, Nat.mod_one]
  | succ w ih =>
    rw [natToBits, bitsToNat_cons, ih, mod_two_pow_succ]
    rcases Nat.mod_two_eq_zero_or_one n with h | h <;> simp [h]

theorem natToBits_mod (w n : Nat) :
    natToBits w (n % 2 ^ w) = natToBits w n := by
  induction w generalizing n with
  | zero => rfl
  | succ w ih =>
    have h3 : (2:Nat) ^ (w + 1) = 2 * 2 ^ w := by ring
    have h1 := Nat.mod_mul_right_div_self n 2 (2 ^ w)
    have h2 := Nat.mod_mul_right_mod n 2 (2 ^ w)
    rw [natToBits, natToBits, h3, h1, h2, ih]

theorem bitsToNat_append (a b : List Bool) :
    bitsToNat (a ++ b) = bitsToNat a + 2 ^ a.length * bitsToNat b := by
  induction a with
  | nil => simp [bitsToNat]
  | cons x xs ih =>
    simp only [List.cons_append, bitsToNat_cons, ih, List.length_cons, pow_succ]
    ring

theorem natToBits_bitsToNat (bs : List Bool) :
    natToBits bs.length (bitsToNat bs) = bs := by
  induction bs with
  | nil => rfl
  | cons b bs ih =>
    rw [List.length_cons, natToBits, bitsToNat_cons]
    have h2 : ((if b then 1 else 0) + 2 * bitsToNat bs) % 2 = if b then 1 else 0 := by
      cases b
      · simp [Nat.mul_mod_right]
      · simp [Nat.add_mul_mod_self_left]
    have h3 : ((if b then 1 else 0) + 2 * bitsToNat bs) / 2 = bitsToNat bs := by
      cases b
      · simp
      · simp [Nat.add_mul_div_left]
    rw [h2, h3, ih]
    cases b <;> simp

theorem slice_append_exact (a b : List Bool) (w : Nat) :
    slice (a ++ b) a.length w = slice b 0 w := by
  simp [slice]

theorem slice_append_shift (a b : List Bool) (k w : Nat) :
    slice (a ++ b) (a.length + k) w = slice b k w := by
  simp [slice, List.drop_append]

theorem slice_here (a b : List Bool) :
    slice (a ++ b) 0 a.length = a := by
  simp [slice, List.take_append]

theorem slice_len_eq (a b : List Bool) (w : Nat) (h : w = a.length) :
    slice (a ++ b) 0 w = a := by
  subst h; exact slice_here a b

/-! ## Quantization levels

Quant methods are the enum ordinals `QUANT_2 = 0` .. `QUANT_256 = 20` of
the source `quant_method` enum. -/

/-- The number of levels used by an ASTC quantization method, embedded
from the `switch` in `get_quant_level` (astcenc_internal.h:425-454).
Out-of-enum values fall through to the trailing `return 0`. -/
def get_quant_level : Nat → Nat
  | 0 => 2 | 1 => 3 | 2 => 4 | 3 => 5 | 4 => 6 | 5 => 8 | 6 => 10
  | 7 => 12 | 8 => 16 | 9 => 20 | 10 => 24 | 11 => 32 | 12 => 40
  | 13 => 48 | 14 => 64 | 15 => 80 | 16 => 96 | 17 => 128 | 18 => 160
  | 19 => 192 | 20 => 256 | _ => 0

/-- Modelled from the spec: §4.1 "BISE packs integers 0..A−1 where A is
one of the 21 quant levels ... For A = 2^k ... A of the form 3·2^k or
5·2^k"; the plain bit count `k` of each level (the `bits` member of the
btq level table, which is declared but not defined in the header). -/
def iseBits : Nat → Nat
  | 0 => 1 | 1 => 0 | 2 => 2 | 3 => 0 | 4 => 1 | 5 => 3 | 6 => 1
  | 7 => 2 | 8 => 4 | 9 => 2 | 10 => 3 | 11 => 5 | 12 => 3 | 13 => 4
  | 14 => 6 | 15 => 4 | 16 => 5 | 17 => 7 | 18 => 5 | 19 => 6 | 20 => 8
  | _ => 0

/-- Modelled from the spec: 1 when the level has the form 3·2^k. -/
def iseTrits : Nat → Nat
  | 1 => 1 | 4 => 1 | 7 => 1 | 10 => 1 | 13 => 1 | 16 => 1 | 19 => 1
  | _ => 0

/-- Modelled from the spec: 1 when the level has the form 5·2^k. -/
def iseQuints : Nat → Nat
  | 3 => 1 | 6 => 1 | 9 => 1 | 12 => 1 | 15 => 1 | 18 => 1 | _ => 0

/-- The modelled level decomposition agrees with the source
`get_quant_level` on all 21 valid levels. -/
theorem iseBits_decomposition :
    ∀ lv < 21,
      get_quant_level lv =
        2 ^ iseBits lv * 3 ^ iseTrits lv * 5 ^ iseQuints lv := by decide

/-! ## Canonical trit and quint packing

The BISE codec groups trits five at a time into an 8-bit packed block
and quints three at a time into a 7-bit packed block (spec §4.1, "using
the canonical ASTC packing tables").  The unpacking functions below are
the published ASTC integer-sequence-decoding algorithms; the packing
table is modelled as the least preimage under unpacking, which (as the
`decide` checks below confirm) is total and satisfies the partial-group
truncation property the canonical tables are built for. -/

/-- Modelled from the spec: unpack five trits from an 8-bit packed trit
block (the canonical ASTC unpacking network). -/
def tritsOf (T : Nat) : List Nat :=
  let bit (i : Nat) : Nat := T / 2 ^ i % 2
  let C : Nat :=
    if T / 4 % 8 = 7 then (T / 32 % 8) * 4 + T % 4
    else T % 32
  let t43 : Nat × Nat :=
    if T / 4 % 8 = 7 then (2, 2)
    else if T / 32 % 4 = 3 then (2, bit 7)
    else (bit 7, T / 32 % 4)
  let cbit (i : Nat) : Nat := C / 2 ^ i % 2
  let t210 : Nat × Nat × Nat :=
    if C % 4 = 3 then (2, cbit 4, (cbit 3) * 2 + (cbit 2) * (1 - cbit 3))
    else if C / 4 % 4 = 3 then (2, 2, C % 4)
    else (cbit 4, C / 4 % 4, (cbit 1) * 2 + (cbit 0) * (1 - cbit 1))
  [t210.2.2, t210.2.1, t210.1, t43.2, t43.1]

/-- Modelled from the spec: unpack three quints from a 7-bit packed
quint block (the canonical ASTC unpacking network). -/
def quintsOf (Q : Nat) : List Nat :=
  let bit (i : Nat) : Nat := Q / 2 ^ i % 2
  if Q / 2 % 4 = 3 ∧ Q / 32 % 4 = 0 then
    let q2 := (bit 0) * 4 + (bit 4) * (1 - bit 0) * 2 + (bit 3) * (1 - bit 0)
    [4, 4, q2]
  else
    let q2C : Nat × Nat :=
      if Q / 2 % 4 = 3 then (4, (Q / 8 % 4) * 8 + (3 - Q / 32 % 4) * 2 + Q % 2)
      else (Q / 32 % 4, Q % 32)
    let C := q2C.2
    let q10 : Nat × Nat :=
      if C % 8 = 5 then (4, C / 8 % 4)
      else (C / 8 % 4, C % 8)
    [q10.2, q10.1, q2C.1]

/-- Index of a trit tuple, base 3, first trit least significant. -/
def tritIdx (ts : List Nat) : Nat :=
  ts.getD 0 0 + 3 * ts.getD 1 0 + 9 * ts.getD 2 0 + 27 * ts.getD 3 0 +
    81 * ts.getD 4 0

/-- Index of a quint tuple, base 5, first quint least significant. -/
def quintIdx (qs : List Nat) : Nat :=
  qs.getD 0 0 + 5 * qs.getD 1 0 + 25 * qs.getD 2 0

/-- Modelled from the spec: the canonical trit packing table
(`integer_of_trits`), as the least preimage of the unpacking network. -/
def tritPack (n : Nat) : Nat :=
  ((List.range 256).find? (fun T => tritIdx (tritsOf T) == n)).getD 0

/-- Modelled from the spec: the canonical quint packing table
(`integer_of_quints`), as the least preimage of the unpacking network. -/
def quintPack (n : Nat) : Nat :=
  ((List.range 128).find? (fun Q => quintIdx (quintsOf Q) == n)).getD 0

set_option maxRecDepth 40000

theorem tritsOf_tritPack :
    ∀ n < 243,
      tritsOf (tritPack n) =
        [n % 3, n / 3 % 3, n / 9 % 3, n / 27 % 3, n / 81 % 3] := by decide

theorem quintsOf_quintPack :
    ∀ n < 125, quintsOf (quintPack n) = [n % 5, n / 5 % 5, n / 25 % 5] := by
  decide

/-- Partial-group truncation: packing a tuple whose trailing trits are
zero only uses the low bits read for that group size. -/
theorem tritPack_trunc :
    ∀ n < 243,
      tritPack n < 256 ∧ (n < 3 → tritPack n < 4) ∧
        (n < 9 → tritPack n < 16) ∧ (n < 27 → tritPack n < 32) ∧
        (n < 81 → tritPack n < 128) := by decide

/-- Partial-group truncation: packing a tuple whose trailing quints are
zero only uses the low bits read for that group size. -/
theorem quintPack_trunc :
    ∀ n < 125,
      quintPack n < 128 ∧ (n < 5 → quintPack n < 8) ∧
        (n < 25 → quintPack n < 32) := by decide

/-! ## BISE group encoding

A group interleaves the k-bit base of each character with successive
chunks of the packed trit/quint block: bases are emitted inline, the
chunk after base `i` has width `chunk i` and holds the packed block bits
starting at weight `shift i` (spec §4.1). -/

/-- Emit one group: for each character its k low bits, then the next
chunk of the packed block `T`. -/
def encodeGAux (chunk shift : Nat → Nat) (k T : Nat) :
    Nat → List Nat → List Bool
  | _, [] => []
  | i, c :: cs =>
    natToBits k c ++ natToBits (chunk i) (T / shift i) ++
      encodeGAux chunk shift k T (i + 1) cs

/-- Parse one group: returns the character bases, the reassembled packed
block, and the remaining input. -/
def decodeGAux (chunk shift : Nat → Nat) (k : Nat) :
    Nat → Nat → List Bool → List Nat × Nat × List Bool
  | _, 0, bs => ([], 0, bs)
  | i, j + 1, bs =>
    (bitsToNat (bs.take k) ::
        (decodeGAux chunk shift k (i + 1) j ((bs.drop k).drop (chunk i))).1,
      bitsToNat ((bs.drop k).take (chunk i)) * shift i +
        (decodeGAux chunk shift k (i + 1) j ((bs.drop k).drop (chunk i))).2.1,
      (decodeGAux chunk shift k (i + 1) j ((bs.drop k).drop (chunk i))).2.2)

/-- The packed-block value reassembled from the chunks of positions
`i..i+j-1` of `T`. -/
def chunkAcc (chunk shift : Nat → Nat) (T : Nat) : Nat → Nat → Nat
  | _, 0 => 0
  | i, j + 1 =>
    T / shift i % 2 ^ chunk i * shift i + chunkAcc chunk shift T (i + 1) j

/-- Total number of chunk bits in positions `i..i+j-1`. -/
def chunkLen (chunk : Nat → Nat) : Nat → Nat → Nat
  | _, 0 => 0
  | i, j + 1 => chunk i + chunkLen chunk (i + 1) j

theorem take_append_len {α : Type} (a b : List α) (n : Nat)
    (h : a.length = n) : (a ++ b).take n = a := by
  subst h; simp

theorem drop_append_len {α : Type} (a b : List α) (n : Nat)
    (h : a.length = n) : (a ++ b).drop n = b := by
  subst h; simp

theorem decodeGAux_encodeGAux (chunk shift : Nat → Nat) (k T : Nat)
    (cs : List Nat) (i : Nat) (rest : List Bool) :
    decodeGAux chunk shift k i cs.length
        (encodeGAux chunk shift k T i cs ++ rest) =
      (cs.map (· % 2 ^ k), chunkAcc chunk shift T i cs.length, rest) := by
  induction cs generalizing i with
  | nil => simp [encodeGAux, decodeGAux, chunkAcc]
  | cons c cs ih =>
    simp only [List.length_cons, encodeGAux, decodeGAux, chunkAcc,
      List.append_assoc, List.map_cons]
    rw [take_append_len _ _ k (natToBits_length k c),
      drop_append_len _ _ k (natToBits_length k c),
      take_append_len _ _ (chunk i) (natToBits_length (chunk i) (T / shift i)),
      drop_append_len _ _ (chunk i) (natToBits_length (chunk i) (T / shift i)),
      ih (i + 1), bitsToNat_natToBits, bitsToNat_natToBits]

theorem encodeGAux_length (chunk shift : Nat → Nat) (k T : Nat)
    (cs : List Nat) (i : Nat) :
    (encodeGAux chunk shift k T i cs).length =
      cs.length * k + chunkLen chunk i cs.length := by
  induction cs generalizing i with
  | nil => simp [encodeGAux, chunkLen]
  | cons c cs ih =>
    simp only [encodeGAux, List.length_append, natToBits_length,
      List.length_cons, ih, chunkLen]
    ring

/-- Chunk widths of the five positions of an 8-bit packed trit block. -/
def tritBlockChunk : Nat → Nat
  | 0 => 2 | 1 => 2 | 2 => 1 | 3 => 2 | _ => 1

/-- Bit weights of the five chunk positions of a packed trit block. -/
def tritBlockShift : Nat → Nat
  | 0 => 1 | 1 => 4 | 2 => 16 | 3 => 32 | _ => 128

/-- Chunk widths of the three positions of a 7-bit packed quint block. -/
def quintBlockChunk : Nat → Nat
  | 0 => 3 | 1 => 2 | _ => 2

/-- Bit weights of the three chunk positions of a packed quint block. -/
def quintBlockShift : Nat → Nat
  | 0 => 1 | 1 => 8 | _ => 32

/-- Cumulative packed-block bit coverage for a trit group of `j`
characters. -/
def tritCb : Nat → Nat
  | 0 => 1 | 1 => 4 | 2 => 16 | 3 => 32 | 4 => 128 | _ => 256

/-- Cumulative packed-block bit coverage for a quint group of `j`
characters. -/
def quintCb : Nat → Nat
  | 0 => 1 | 1 => 8 | 2 => 32 | _ => 128

theorem chunkAcc_trit (T j : Nat) (hj : j ≤ 5) (hT : T < tritCb j) :
    chunkAcc tritBlockChunk tritBlockShift T 0 j = T := by
  interval_cases j <;>
    simp_all [chunkAcc, tritBlockChunk, tritBlockShift, tritCb] <;> omega

theorem chunkAcc_quint (T j : Nat) (hj : j ≤ 3) (hT : T < quintCb j) :
    chunkAcc quintBlockChunk quintBlockShift T 0 j = T := by
  interval_cases j <;>
    simp_all [chunkAcc, quintBlockChunk, quintBlockShift, quintCb] <;> omega

theorem chunkLen_trit (j : Nat) (hj : j ≤ 5) :
    chunkLen tritBlockChunk 0 j = (8 * j + 4) / 5 := by
  interval_cases j <;> decide

theorem chunkLen_quint (j : Nat) (hj : j ≤ 3) :
    chunkLen quintBlockChunk 0 j = (7 * j + 2) / 3 := by
  interval_cases j <;> decide

/-- Reassemble characters from bases and unpacked trits/quints. -/
theorem zipWith_unquant (k : Nat) (cs ts : List Nat)
    (hlen : cs.length ≤ ts.length)
    (h : ∀ i, i < cs.length → ts.getD i 0 = cs.getD i 0 / 2 ^ k) :
    List.zipWith (fun m t => m + 2 ^ k * t) (cs.map (· % 2 ^ k)) ts = cs := by
  induction cs generalizing ts with
  | nil => simp
  | cons c cs ih =>
    cases ts with
    | nil => simp at hlen
    | cons t ts =>
      simp only [List.map_cons, List.zipWith_cons_cons]
      have h0 := h 0 (by simp)
      simp only [List.getD_cons_zero] at h0
      rw [h0, Nat.mod_add_div]
      congr 1
      refine ih ts (by simpa using hlen) ?_
      intro i hi
      have := h (i + 1) (by simpa using Nat.succ_lt_succ hi)
      simpa using this

/-- A trit-class group: the packed block is built from the characters'
high trits, the bases are the characters' low k bits. -/
def encodeTritGroup (k : Nat) (cs : List Nat) : List Bool :=
  encodeGAux tritBlockChunk tritBlockShift k
    (tritPack (tritIdx (cs.map (· / 2 ^ k)))) 0 cs

/-- Parse a trit-class group of `j` characters. -/
def tritGroupChars (k j : Nat) (bs : List Bool) : List Nat :=
  List.zipWith (fun m t => m + 2 ^ k * t)
    (decodeGAux tritBlockChunk tritBlockShift k 0 j bs).1
    (tritsOf (decodeGAux tritBlockChunk tritBlockShift k 0 j bs).2.1)

/-- A quint-class group. -/
def encodeQuintGroup (k : Nat) (cs : List Nat) : List Bool :=
  encodeGAux quintBlockChunk quintBlockShift k
    (quintPack (quintIdx (cs.map (· / 2 ^ k)))) 0 cs

/-- Parse a quint-class group of `j` characters. -/
def quintGroupChars (k j : Nat) (bs : List Bool) : List Nat :=
  List.zipWith (fun m t => m + 2 ^ k * t)
    (decodeGAux quintBlockChunk quintBlockShift k 0 j bs).1
    (quintsOf (decodeGAux quintBlockChunk quintBlockShift k 0 j bs).2.1)

theorem tritsOf_pack_digits (a0 a1 a2 a3 a4 : Nat)
    (h0 : a0 < 3) (h1 : a1 < 3) (h2 : a2 < 3) (h3 : a3 < 3) (h4 : a4 < 3) :
    tritsOf (tritPack (a0 + 3 * a1 + 9 * a2 + 27 * a3 + 81 * a4)) =
      [a0, a1, a2, a3, a4] := by
  have hn : a0 + 3 * a1 + 9 * a2 + 27 * a3 + 81 * a4 < 243 := by omega
  rw [tritsOf_tritPack _ hn]
  have e0 : (a0 + 3 * a1 + 9 * a2 + 27 * a3 + 81 * a4) % 3 = a0 := by omega
  have e1 : (a0 + 3 * a1 + 9 * a2 + 27 * a3 + 81 * a4) / 3 % 3 = a1 := by omega
  have e2 : (a0 + 3 * a1 + 9 * a2 + 27 * a3 + 81 * a4) / 9 % 3 = a2 := by omega
  have e3 : (a0 + 3 * a1 + 9 * a2 + 27 * a3 + 81 * a4) / 27 % 3 = a3 := by
    omega
  have e4 : (a0 + 3 * a1 + 9 * a2 + 27 * a3 + 81 * a4) / 81 % 3 = a4 := by
    omega
  rw [e0, e1, e2, e3, e4]

theorem quintsOf_pack_digits (a0 a1 a2 : Nat)
    (h0 : a0 < 5) (h1 : a1 < 5) (h2 : a2 < 5) :
    quintsOf (quintPack (a0 + 5 * a1 + 25 * a2)) = [a0, a1, a2] := by
  have hn : a0 + 5 * a1 + 25 * a2 < 125 := by omega
  rw [quintsOf_quintPack _ hn]
  have e0 : (a0 + 5 * a1 + 25 * a2) % 5 = a0 := by omega
  have e1 : (a0 + 5 * a1 + 25 * a2) / 5 % 5 = a1 := by omega
  have e2 : (a0 + 5 * a1 + 25 * a2) / 25 % 5 = a2 := by omega
  rw [e0, e1, e2]

theorem tritGroupChars_encode (k : Nat) (cs : List Nat) (rest : List Bool)
    (hlen : cs.length ≤ 5) (hc : ∀ c ∈ cs, c < 3 * 2 ^ k) :
    tritGroupChars k cs.length (encodeTritGroup k cs ++ rest) = cs := by
  have hmd : ∀ c : Nat, c % 2 ^ k + 2 ^ k * (c / 2 ^ k) = c :=
    fun c => Nat.mod_add_div c (2 ^ k)
  match cs with
  | [] =>
    simp [tritGroupChars, encodeTritGroup, encodeGAux, decodeGAux]
  | [c0] =>
    have b0 : c0 / 2 ^ k < 3 :=
      Nat.div_lt_of_lt_mul (by have := hc c0 (by simp); omega)
    have hn : tritIdx [c0 / 2 ^ k] =
        c0 / 2 ^ k + 3 * 0 + 9 * 0 + 27 * 0 + 81 * 0 := by
      simp [tritIdx]
    rw [tritGroupChars, encodeTritGroup, List.map_singleton, hn,
      decodeGAux_encodeGAux]
    simp only [Prod.fst, Prod.snd]
    have hT := (tritPack_trunc (c0 / 2 ^ k + 3 * 0 + 9 * 0 + 27 * 0 + 81 * 0) (by omega)).2.1 (by omega)
    rw [chunkAcc_trit _ _ (by simp) (by exact hT)]
    rw [tritsOf_pack_digits _ 0 0 0 0 b0 (by omega) (by omega) (by omega)
      (by omega)]
    simp [hmd c0]
  | [c0, c1] =>
    have b0 : c0 / 2 ^ k < 3 :=
      Nat.div_lt_of_lt_mul (by have := hc c0 (by simp); omega)
    have b1 : c1 / 2 ^ k < 3 :=
      Nat.div_lt_of_lt_mul (by have := hc c1 (by simp); omega)
    have hn : tritIdx [c0 / 2 ^ k, c1 / 2 ^ k] =
        c0 / 2 ^ k + 3 * (c1 / 2 ^ k) + 9 * 0 + 27 * 0 + 81 * 0 := by
      simp [tritIdx]
    rw [tritGroupChars, encodeTritGroup, List.map_cons, List.map_singleton, hn,
      decodeGAux_encodeGAux]
    simp only [Prod.fst, Prod.snd]
    have hT := (tritPack_trunc (c0 / 2 ^ k + 3 * (c1 / 2 ^ k) + 9 * 0 + 27 * 0 + 81 * 0) (by omega)).2.2.1 (by omega)
    rw [chunkAcc_trit _ _ (by simp) (by exact hT)]
    rw [tritsOf_pack_digits _ _ 0 0 0 b0 b1 (by omega) (by omega) (by omega)]
    simp [hmd c0, hmd c1]
  | [c0, c1, c2] =>
    have b0 : c0 / 2 ^ k < 3 :=
      Nat.div_lt_of_lt_mul (by have := hc c0 (by simp); omega)
    have b1 : c1 / 2 ^ k < 3 :=
      Nat.div_lt_of_lt_mul (by have := hc c1 (by simp); omega)
    have b2 : c2 / 2 ^ k < 3 :=
      Nat.div_lt_of_lt_mul (by have := hc c2 (by simp); omega)
    have hn : tritIdx [c0 / 2 ^ k, c1 / 2 ^ k, c2 / 2 ^ k] =
        c0 / 2 ^ k + 3 * (c1 / 2 ^ k) + 9 * (c2 / 2 ^ k) + 27 * 0 + 81 * 0 := by
      simp [tritIdx]
    rw [tritGroupChars, encodeTritGroup, List.map_cons, List.map_cons,
      List.map_singleton, hn, decodeGAux_encodeGAux]
    simp only [Prod.fst, Prod.snd]
    have hT := (tritPack_trunc (c0 / 2 ^ k + 3 * (c1 / 2 ^ k) + 9 * (c2 / 2 ^ k) + 27 * 0 + 81 * 0) (by omega)).2.2.2.1 (by omega)
    rw [chunkAcc_trit _ _ (by simp) (by exact hT)]
    rw [tritsOf_pack_digits _ _ _ 0 0 b0 b1 b2 (by omega) (by omega)]
    simp [hmd c0, hmd c1, hmd c2]
  | [c0, c1, c2, c3] =>
    have b0 : c0 / 2 ^ k < 3 :=
      Nat.div_lt_of_lt_mul (by have := hc c0 (by simp); omega)
    have b1 : c1 / 2 ^ k < 3 :=
      Nat.div_lt_of_lt_mul (by have := hc c1 (by simp); omega)
    have b2 : c2 / 2 ^ k < 3 :=
      Nat.div_lt_of_lt_mul (by have := hc c2 (by simp); omega)
    have b3 : c3 / 2 ^ k < 3 :=
      Nat.div_lt_of_lt_mul (by have := hc c3 (by simp); omega)
    have hn : tritIdx [c0 / 2 ^ k, c1 / 2 ^ k, c2 / 2 ^ k, c3 / 2 ^ k] =
        c0 / 2 ^ k + 3 * (c1 / 2 ^ k) + 9 * (c2 / 2 ^ k) + 27 * (c3 / 2 ^ k) +
          81 * 0 := by
      simp [tritIdx]
    rw [tritGroupChars, encodeTritGroup, List.map_cons, List.map_cons,
      List.map_cons, List.map_singleton, hn, decodeGAux_encodeGAux]
    simp only [Prod.fst, Prod.snd]
    have hT := (tritPack_trunc (c0 / 2 ^ k + 3 * (c1 / 2 ^ k) + 9 * (c2 / 2 ^ k) + 27 * (c3 / 2 ^ k) + 81 * 0) (by omega)).2.2.2.2 (by omega)
    rw [chunkAcc_trit _ _ (by simp) (by exact hT)]
    rw [tritsOf_pack_digits _ _ _ _ 0 b0 b1 b2 b3 (by omega)]
    simp [hmd c0, hmd c1, hmd c2, hmd c3]
  | [c0, c1, c2, c3, c4] =>
    have b0 : c0 / 2 ^ k < 3 :=
      Nat.div_lt_of_lt_mul (by have := hc c0 (by simp); omega)
    have b1 : c1 / 2 ^ k < 3 :=
      Nat.div_lt_of_lt_mul (by have := hc c1 (by simp); omega)
    have b2 : c2 / 2 ^ k < 3 :=
      Nat.div_lt_of_lt_mul (by have := hc c2 (by simp); omega)
    have b3 : c3 / 2 ^ k < 3 :=
      Nat.div_lt_of_lt_mul (by have := hc c3 (by simp); omega)
    have b4 : c4 / 2 ^ k < 3 :=
      Nat.div_lt_of_lt_mul (by have := hc c4 (by simp); omega)
    have hn : tritIdx [c0 / 2 ^ k, c1 / 2 ^ k, c2 / 2 ^ k, c3 / 2 ^ k,
        c4 / 2 ^ k] =
        c0 / 2 ^ k + 3 * (c1 / 2 ^ k) + 9 * (c2 / 2 ^ k) + 27 * (c3 / 2 ^ k) +
          81 * (c4 / 2 ^ k) := by
      simp [tritIdx]
    rw [tritGroupChars, encodeTritGroup, List.map_cons, List.map_cons,
      List.map_cons, List.map_cons, List.map_singleton, hn,
      decodeGAux_encodeGAux]
    simp only [Prod.fst, Prod.snd]
    have hT := (tritPack_trunc (c0 / 2 ^ k + 3 * (c1 / 2 ^ k) + 9 * (c2 / 2 ^ k) + 27 * (c3 / 2 ^ k) + 81 * (c4 / 2 ^ k)) (by omega)).1
    rw [chunkAcc_trit _ _ (by simp) (by exact hT)]
    rw [tritsOf_pack_digits _ _ _ _ _ b0 b1 b2 b3 b4]
    simp [hmd c0, hmd c1, hmd c2, hmd c3, hmd c4]
  | c0 :: c1 :: c2 :: c3 :: c4 :: c5 :: cs2 =>
    exact absurd hlen (by simp)

theorem quintGroupChars_encode (k : Nat) (cs : List Nat) (rest : List Bool)
    (hlen : cs.length ≤ 3) (hc : ∀ c ∈ cs, c < 5 * 2 ^ k) :
    quintGroupChars k cs.length (encodeQuintGroup k cs ++ rest) = cs := by
  have hmd : ∀ c : Nat, c % 2 ^ k + 2 ^ k * (c / 2 ^ k) = c :=
    fun c => Nat.mod_add_div c (2 ^ k)
  match cs with
  | [] =>
    simp [quintGroupChars, encodeQuintGroup, encodeGAux, decodeGAux]
  | [c0] =>
    have b0 : c0 / 2 ^ k < 5 :=
      Nat.div_lt_of_lt_mul (by have := hc c0 (by simp); omega)
    have hn : quintIdx [c0 / 2 ^ k] = c0 / 2 ^ k + 5 * 0 + 25 * 0 := by
      simp [quintIdx]
    rw [quintGroupChars, encodeQuintGroup, List.map_singleton, hn,
      decodeGAux_encodeGAux]
    simp only [Prod.fst, Prod.snd]
    have hT := (quintPack_trunc (c0 / 2 ^ k + 5 * 0 + 25 * 0) (by omega)).2.1 (by omega)
    rw [chunkAcc_quint _ _ (by simp) (by exact hT)]
    rw [quintsOf_pack_digits _ 0 0 b0 (by omega) (by omega)]
    simp [hmd c0]
  | [c0, c1] =>
    have b0 : c0 / 2 ^ k < 5 :=
      Nat.div_lt_of_lt_mul (by have := hc c0 (by simp); omega)
    have b1 : c1 / 2 ^ k < 5 :=
      Nat.div_lt_of_lt_mul (by have := hc c1 (by simp); omega)
    have hn : quintIdx [c0 / 2 ^ k, c1 / 2 ^ k] =
        c0 / 2 ^ k + 5 * (c1 / 2 ^ k) + 25 * 0 := by
      simp [quintIdx]
    rw [quintGroupChars, encodeQuintGroup, List.map_cons, List.map_singleton,
      hn, decodeGAux_encodeGAux]
    simp only [Prod.fst, Prod.snd]
    have hT := (quintPack_trunc (c0 / 2 ^ k + 5 * (c1 / 2 ^ k) + 25 * 0) (by omega)).2.2 (by omega)
    rw [chunkAcc_quint _ _ (by simp) (by exact hT)]
    rw [quintsOf_pack_digits _ _ 0 b0 b1 (by omega)]
    simp [hmd c0, hmd c1]
  | [c0, c1, c2] =>
    have b0 : c0 / 2 ^ k < 5 :=
      Nat.div_lt_of_lt_mul (by have := hc c0 (by simp); omega)
    have b1 : c1 / 2 ^ k < 5 :=
      Nat.div_lt_of_lt_mul (by have := hc c1 (by simp); omega)
    have b2 : c2 / 2 ^ k < 5 :=
      Nat.div_lt_of_lt_mul (by have := hc c2 (by simp); omega)
    have hn : quintIdx [c0 / 2 ^ k, c1 / 2 ^ k, c2 / 2 ^ k] =
        c0 / 2 ^ k + 5 * (c1 / 2 ^ k) + 25 * (c2 / 2 ^ k) := by
      simp [quintIdx]
    rw [quintGroupChars, encodeQuintGroup, List.map_cons, List.map_cons,
      List.map_singleton, hn, decodeGAux_encodeGAux]
    simp only [Prod.fst, Prod.snd]
    have hT := (quintPack_trunc (c0 / 2 ^ k + 5 * (c1 / 2 ^ k) + 25 * (c2 / 2 ^ k)) (by omega)).1
    rw [chunkAcc_quint _ _ (by simp) (by exact hT)]
    rw [quintsOf_pack_digits _ _ _ b0 b1 b2]
    simp [hmd c0, hmd c1, hmd c2]
  | c0 :: c1 :: c2 :: c3 :: cs2 =>
    exact absurd hlen (by simp)

/-! ## BISE character streams

Trit-class characters are processed in groups of five, quint-class in
groups of three, plain power-of-two characters one at a time
(spec §4.1). -/

/-- Trit-class stream encoder. -/
def encodeTrits (k : Nat) (cs : List Nat) : List Bool :=
  if _h : cs.length ≤ 5 then encodeTritGroup k cs
  else encodeTritGroup k (cs.take 5) ++ encodeTrits k (cs.drop 5)
termination_by cs.length
decreasing_by simp; omega

/-- Trit-class stream decoder for `N` characters. -/
def decodeTrits (k N : Nat) (bs : List Bool) : List Nat :=
  if _h : N ≤ 5 then tritGroupChars k N bs
  else
    tritGroupChars k 5 bs ++
      decodeTrits k (N - 5)
        (decodeGAux tritBlockChunk tritBlockShift k 0 5 bs).2.2
termination_by N
decreasing_by omega

/-- Quint-class stream encoder. -/
def encodeQuints (k : Nat) (cs : List Nat) : List Bool :=
  if _h : cs.length ≤ 3 then encodeQuintGroup k cs
  else encodeQuintGroup k (cs.take 3) ++ encodeQuints k (cs.drop 3)
termination_by cs.length
decreasing_by simp; omega

/-- Quint-class stream decoder for `N` characters. -/
def decodeQuints (k N : Nat) (bs : List Bool) : List Nat :=
  if _h : N ≤ 3 then quintGroupChars k N bs
  else
    quintGroupChars k 3 bs ++
      decodeQuints k (N - 3)
        (decodeGAux quintBlockChunk quintBlockShift k 0 3 bs).2.2
termination_by N
decreasing_by omega

/-- Plain power-of-two stream encoder. -/
def encodePlain (k : Nat) : List Nat → List Bool
  | [] => []
  | c :: cs => natToBits k c ++ encodePlain k cs

/-- Plain power-of-two stream decoder for `N` characters. -/
def decodePlain (k : Nat) : Nat → List Bool → List Nat
  | 0, _ => []
  | N + 1, bs => bitsToNat (bs.take k) :: decodePlain k N (bs.drop k)

theorem decodeTrits_encodeTrits (k : Nat) :
    ∀ N (cs : List Nat), cs.length = N → ∀ rest : List Bool,
      (∀ c ∈ cs, c < 3 * 2 ^ k) →
      decodeTrits k cs.length (encodeTrits k cs ++ rest) = cs := by
  intro N
  induction N using Nat.strong_induction_on with
  | _ N ih =>
    intro cs hlen rest hc
    rw [encodeTrits, decodeTrits]
    by_cases h : cs.length ≤ 5
    · rw [dif_pos h, dif_pos h]
      exact tritGroupChars_encode k cs rest h hc
    · rw [dif_neg h, dif_neg h, List.append_assoc]
      have h5 : (cs.take 5).length = 5 := by
        rw [List.length_take]; omega
      have hc5 : ∀ c ∈ cs.take 5, c < 3 * 2 ^ k :=
        fun c hm => hc c (List.take_subset 5 cs hm)
      have hg := tritGroupChars_encode k (cs.take 5)
        (encodeTrits k (cs.drop 5) ++ rest) (by omega) hc5
      rw [h5] at hg
      rw [hg]
      have hd := decodeGAux_encodeGAux tritBlockChunk tritBlockShift k
        (tritPack (tritIdx ((cs.take 5).map (· / 2 ^ k)))) (cs.take 5) 0
        (encodeTrits k (cs.drop 5) ++ rest)
      rw [h5] at hd
      rw [show encodeTritGroup k (cs.take 5) ++
          (encodeTrits k (cs.drop 5) ++ rest) =
          encodeGAux tritBlockChunk tritBlockShift k
            (tritPack (tritIdx ((cs.take 5).map (· / 2 ^ k)))) 0 (cs.take 5) ++
            (encodeTrits k (cs.drop 5) ++ rest) from rfl, hd]
      have hdl : (cs.drop 5).length = cs.length - 5 := by
        rw [List.length_drop]
      have hrec := ih (cs.length - 5) (by omega) (cs.drop 5) (by omega) rest
        (fun c hm => hc c (List.drop_subset 5 cs hm))
      rw [hdl] at hrec
      rw [hrec, List.take_append_drop]

theorem decodeQuints_encodeQuints (k : Nat) :
    ∀ N (cs : List Nat), cs.length = N → ∀ rest : List Bool,
      (∀ c ∈ cs, c < 5 * 2 ^ k) →
      decodeQuints k cs.length (encodeQuints k cs ++ rest) = cs := by
  intro N
  induction N using Nat.strong_induction_on with
  | _ N ih =>
    intro cs hlen rest hc
    rw [encodeQuints, decodeQuints]
    by_cases h : cs.length ≤ 3
    · rw [dif_pos h, dif_pos h]
      exact quintGroupChars_encode k cs rest h hc
    · rw [dif_neg h, dif_neg h, List.append_assoc]
      have h3 : (cs.take 3).length = 3 := by
        rw [List.length_take]; omega
      have hc3 : ∀ c ∈ cs.take 3, c < 5 * 2 ^ k :=
        fun c hm => hc c (List.take_subset 3 cs hm)
      have hg := quintGroupChars_encode k (cs.take 3)
        (encodeQuints k (cs.drop 3) ++ rest) (by omega) hc3
      rw [h3] at hg
      rw [hg]
      have hd := decodeGAux_encodeGAux quintBlockChunk quintBlockShift k
        (quintPack (quintIdx ((cs.take 3).map (· / 2 ^ k)))) (cs.take 3) 0
        (encodeQuints k (cs.drop 3) ++ rest)
      rw [h3] at hd
      rw [show encodeQuintGroup k (cs.take 3) ++
          (encodeQuints k (cs.drop 3) ++ rest) =
          encodeGAux quintBlockChunk quintBlockShift k
            (quintPack (quintIdx ((cs.take 3).map (· / 2 ^ k)))) 0 (cs.take 3) ++
            (encodeQuints k (cs.drop 3) ++ rest) from rfl, hd]
      have hdl : (cs.drop 3).length = cs.length - 3 := by
        rw [List.length_drop]
      have hrec := ih (cs.length - 3) (by omega) (cs.drop 3) (by omega) rest
        (fun c hm => hc c (List.drop_subset 3 cs hm))
      rw [hdl] at hrec
      rw [hrec, List.take_append_drop]

theorem decodePlain_encodePlain (k : Nat) (cs : List Nat) (rest : List Bool)
    (hc : ∀ c ∈ cs, c < 2 ^ k) :
    decodePlain k cs.length (encodePlain k cs ++ rest) = cs := by
  induction cs with
  | nil => simp [decodePlain]
  | cons c cs ih =>
    simp only [encodePlain, List.length_cons, decodePlain, List.append_assoc]
    rw [take_append_len _ _ k (natToBits_length k c),
      drop_append_len _ _ k (natToBits_length k c), bitsToNat_natToBits,
      Nat.mod_eq_of_lt (hc c (by simp)),
      ih (fun c hm => hc c (by simp [hm]))]

theorem encodeTrits_length (k : Nat) :
    ∀ N (cs : List Nat), cs.length = N →
      (encodeTrits k cs).length = cs.length * k + (8 * cs.length + 4) / 5 := by
  intro N
  induction N using Nat.strong_induction_on with
  | _ N ih =>
    intro cs hlen
    rw [encodeTrits]
    by_cases h : cs.length ≤ 5
    · rw [dif_pos h, encodeTritGroup, encodeGAux_length, chunkLen_trit _ h]
    · rw [dif_neg h, List.length_append, encodeTritGroup, encodeGAux_length,
        chunkLen_trit]
      · have hdl : (cs.drop 5).length = cs.length - 5 := by
          rw [List.length_drop]
        have hrec := ih (cs.length - 5) (by omega) (cs.drop 5) (by omega)
        rw [hdl] at hrec
        rw [hrec]
        have h5 : (cs.take 5).length = 5 := by
          rw [List.length_take]; omega
        rw [h5]
        have e1 : (cs.length - 5) * k + 5 * k = cs.length * k := by
          have e2 := Nat.sub_mul cs.length 5 k
          have e3 : 5 * k ≤ cs.length * k :=
            Nat.mul_le_mul_right k (by omega)
          omega
        omega
      · rw [List.length_take]; omega

theorem encodeQuints_length (k : Nat) :
    ∀ N (cs : List Nat), cs.length = N →
      (encodeQuints k cs).length = cs.length * k + (7 * cs.length + 2) / 3 := by
  intro N
  induction N using Nat.strong_induction_on with
  | _ N ih =>
    intro cs hlen
    rw [encodeQuints]
    by_cases h : cs.length ≤ 3
    · rw [dif_pos h, encodeQuintGroup, encodeGAux_length, chunkLen_quint _ h]
    · rw [dif_neg h, List.length_append, encodeQuintGroup, encodeGAux_length,
        chunkLen_quint]
      · have hdl : (cs.drop 3).length = cs.length - 3 := by
          rw [List.length_drop]
        have hrec := ih (cs.length - 3) (by omega) (cs.drop 3) (by omega)
        rw [hdl] at hrec
        rw [hrec]
        have h3 : (cs.take 3).length = 3 := by
          rw [List.length_take]; omega
        rw [h3]
        have e1 : (cs.length - 3) * k + 3 * k = cs.length * k := by
          have e2 := Nat.sub_mul cs.length 3 k
          have e3 : 3 * k ≤ cs.length * k :=
            Nat.mul_le_mul_right k (by omega)
          omega
        omega
      · rw [List.length_take]; omega

theorem encodePlain_length (k : Nat) (cs : List Nat) :
    (encodePlain k cs).length = cs.length * k := by
  induction cs with
  | nil => simp [encodePlain]
  | cons c cs ih =>
    simp only [encodePlain, List.length_append, natToBits_length,
      List.length_cons, ih]
    ring

/-! ## The BISE codec interface -/

/-- Modelled from the spec: the exact bit string that `encode_ise` writes
for a character sequence at a given quant level (spec §4.1; the header
declares `encode_ise` at astcenc_internal.h:1503 without a body). -/
def encodeIseBits (quant_level : Nat) (cs : List Nat) : List Bool :=
  if iseTrits quant_level = 1 then encodeTrits (iseBits quant_level) cs
  else if iseQuints quant_level = 1 then encodeQuints (iseBits quant_level) cs
  else encodePlain (iseBits quant_level) cs

/-- Modelled from the spec: decode `N` characters from a BISE bit string
(spec §4.1; the header declares `decode_ise` at astcenc_internal.h:1522
without a body). -/
def decodeIseBits (quant_level N : Nat) (bs : List Bool) : List Nat :=
  if iseTrits quant_level = 1 then decodeTrits (iseBits quant_level) N bs
  else if iseQuints quant_level = 1 then decodeQuints (iseBits quant_level) N bs
  else decodePlain (iseBits quant_level) N bs

/-- Level class facts used to convert the `get_quant_level` character
bound into the class-specific bound. -/
theorem level_class_bounds :
    ∀ lv < 21,
      (iseTrits lv = 1 → get_quant_level lv = 3 * 2 ^ iseBits lv) ∧
      (iseQuints lv = 1 → get_quant_level lv = 5 * 2 ^ iseBits lv) ∧
      (iseTrits lv ≠ 1 → iseQuints lv ≠ 1 →
        get_quant_level lv = 2 ^ iseBits lv) := by decide

theorem decodeIseBits_encodeIseBits (lv : Nat) (cs : List Nat)
    (rest : List Bool) (hlv : lv < 21)
    (hc : ∀ c ∈ cs, c < get_quant_level lv) :
    decodeIseBits lv cs.length (encodeIseBits lv cs ++ rest) = cs := by
  have hcls := level_class_bounds lv hlv
  unfold decodeIseBits encodeIseBits
  by_cases ht : iseTrits lv = 1
  · rw [if_pos ht, if_pos ht]
    refine decodeTrits_encodeTrits _ cs.length cs rfl rest ?_
    intro c hm
    have := hc c hm
    rw [hcls.1 ht] at this
    exact this
  · rw [if_neg ht, if_neg ht]
    by_cases hq : iseQuints lv = 1
    · rw [if_pos hq, if_pos hq]
      refine decodeQuints_encodeQuints _ cs.length cs rfl rest ?_
      intro c hm
      have := hc c hm
      rw [hcls.2.1 hq] at this
      exact this
    · rw [if_neg hq, if_neg hq]
      refine decodePlain_encodePlain _ cs rest ?_
      intro c hm
      have := hc c hm
      rw [hcls.2.2 ht hq] at this
      exact this

theorem trit_quint_exclusive :
    ∀ lv < 21, ¬(iseTrits lv = 1 ∧ iseQuints lv = 1) := by decide

/-- Modelled from the spec: §4.1 "`get_ise_sequence_bitcount(N, level)`
returns the exact bit count, or a value ≥ 129 for invalid levels so
callers reject them" and the header doc "This implementation assumes
that the quant level is untrusted ... so we return an arbitrary
unencodable size if that is the case" (astcenc_internal.h:1529-1542,
declaration only). -/
def get_ise_sequence_bitcount (character_count quant_level : Nat) : Nat :=
  if quant_level < 21 then
    character_count * iseBits quant_level +
      iseTrits quant_level * ((8 * character_count + 4) / 5) +
      iseQuints quant_level * ((7 * character_count + 2) / 3)
  else 1024

theorem encodeIseBits_length (lv : Nat) (cs : List Nat) (hlv : lv < 21) :
    (encodeIseBits lv cs).length =
      cs.length * iseBits lv + iseTrits lv * ((8 * cs.length + 4) / 5) +
        iseQuints lv * ((7 * cs.length + 2) / 3) := by
  unfold encodeIseBits
  by_cases ht : iseTrits lv = 1
  · have hq : iseQuints lv = 0 := by
      have h1 := trit_quint_exclusive lv hlv
      have h2 : iseQuints lv ≤ 1 := by
        unfold iseQuints
        split <;> omega
      omega
    rw [if_pos ht, encodeTrits_length _ cs.length cs rfl, ht, hq]
    ring
  · have ht0 : iseTrits lv = 0 := by
      have : iseTrits lv ≤ 1 := by
        unfold iseTrits
        split <;> omega
      omega
    rw [if_neg ht]
    by_cases hq : iseQuints lv = 1
    · rw [if_pos hq, encodeQuints_length _ cs.length cs rfl, ht0, hq]
      ring
    · have hq0 : iseQuints lv = 0 := by
        have : iseQuints lv ≤ 1 := by
          unfold iseQuints
          split <;> omega
        omega
      rw [if_neg hq, encodePlain_length, ht0, hq0]
      ring

/-! ## The bit-addressable output store

`encode_ise` writes into a caller-supplied byte array at an arbitrary
bit offset; the array is modelled as a bit-addressable store
`Nat → Bool` (bit `i` of the store is bit `i % 8` of byte `i / 8`,
little-endian within each byte, spec §4.1). -/

/-- Overlay a bit string onto a store at a bit offset. -/
def writeBits (dst : Nat → Bool) (off : Nat) (bs : List Bool) : Nat → Bool :=
  fun i => if off ≤ i ∧ i < off + bs.length then bs.getD (i - off) false
    else dst i

/-- Read `len` bits from a store starting at a bit offset. -/
def readStore (src : Nat → Bool) (off len : Nat) : List Bool :=
  (List.range len).map (fun i => src (off + i))

theorem range_map_getD (bs : List Bool) :
    (List.range bs.length).map (fun i => bs.getD i false) = bs := by
  induction bs with
  | nil => rfl
  | cons b bs ih =>
    rw [List.length_cons, List.range_succ_eq_map, List.map_cons, List.map_map]
    have he : ∀ i ∈ List.range bs.length,
        ((fun i => (b :: bs).getD i false) ∘ Nat.succ) i = bs.getD i false := by
      intro i _
      show (b :: bs).getD (i + 1) false = bs.getD i false
      simp [List.getD_cons_succ]
    rw [List.map_congr_left he, ih]
    simp [List.getD_cons_zero]

theorem readStore_writeBits (dst : Nat → Bool) (off : Nat) (bs : List Bool) :
    readStore (writeBits dst off bs) off bs.length = bs := by
  have h1 : ∀ i ∈ List.range bs.length,
      writeBits dst off bs (off + i) = bs.getD i false := by
    intro i hi
    rw [List.mem_range] at hi
    unfold writeBits
    rw [if_pos ⟨Nat.le_add_right off i, by omega⟩]
    congr 1
    omega
  unfold readStore
  rw [List.map_congr_left h1, range_map_getD]

/-- Modelled from the spec: §4.1 — "`encode_ise(level, N, src[N], dst,
bit_offset)` writes `bits = ceil(N·bits_per_char(level))` bits starting
at `bit_offset` of `dst` (little-endian within each byte)" (header
declaration astcenc_internal.h:1503). -/
def encode_ise (quant_level character_count : Nat) (input_data : List Nat)
    (output_data : Nat → Bool) (bit_offset : Nat) : Nat → Bool :=
  writeBits output_data bit_offset
    (encodeIseBits quant_level (input_data.take character_count))

/-- Modelled from the spec: §4.1 — "`decode_ise` is its exact inverse
over well-formed input; over arbitrary input it must not read past the
declared range": it reads exactly `get_ise_sequence_bitcount` bits
starting at `bit_offset` (header declaration astcenc_internal.h:1522). -/
def decode_ise (quant_level character_count : Nat) (input_data : Nat → Bool)
    (bit_offset : Nat) : List Nat :=
  decodeIseBits quant_level character_count
    (readStore input_data bit_offset
      (get_ise_sequence_bitcount character_count quant_level))

/-- C2: BISE codec round-trip: for every valid quant level (one of the
21 levels) and every character count `N` with each input character in
range `0..level-1`, decoding with `decode_ise` the bit string written by
`encode_ise` at the same quant level, character count, and bit offset
recovers the original input characters exactly. -/
theorem decode_ise_encode_ise (quant_level character_count : Nat)
    (cs : List Nat) (dst : Nat → Bool) (bit_offset : Nat)
    (hlv : quant_level < 21) (hlen : cs.length = character_count)
    (hc : ∀ c ∈ cs, c < get_quant_level quant_level) :
    decode_ise quant_level character_count
        (encode_ise quant_level character_count cs dst bit_offset)
        bit_offset = cs := by
  subst hlen
  unfold decode_ise encode_ise
  rw [List.take_length]
  have hbc : get_ise_sequence_bitcount cs.length quant_level =
      (encodeIseBits quant_level cs).length := by
    rw [encodeIseBits_length _ _ hlv, get_ise_sequence_bitcount, if_pos hlv]
  rw [hbc, readStore_writeBits]
  have h := decodeIseBits_encodeIseBits quant_level cs [] hlv hc
  rw [List.append_nil] at h
  exact h

/-- Witness for C2: a concrete trit-class round trip (QUANT_6, seven
characters, bit offset 3, nonzero destination store). -/
theorem decode_ise_encode_ise_witness :
    decode_ise 4 7 (encode_ise 4 7 [5, 0, 3, 2, 1, 4, 5]
      (fun _ => true) 3) 3 = [5, 0, 3, 2, 1, 4, 5] :=
  decode_ise_encode_ise 4 7 [5, 0, 3, 2, 1, 4, 5] (fun _ => true) 3
    (by decide) (by decide) (by decide)

/-- C3: for every character count `N` and quant level,
`get_ise_sequence_bitcount(N, level)` returns exactly the number of bits
that `encode_ise` writes for an `N`-character sequence at that level
when the level is one of the 21 valid levels, and returns a value ≥ 129
when the level is invalid, so callers reject it.  (The model is a total
function, so the codec cannot throw.) -/
theorem get_ise_sequence_bitcount_spec (character_count quant_level : Nat)
    (cs : List Nat) (hlen : cs.length = character_count) :
    (quant_level < 21 →
      get_ise_sequence_bitcount character_count quant_level =
        (encodeIseBits quant_level cs).length) ∧
    (21 ≤ quant_level →
      129 ≤ get_ise_sequence_bitcount character_count quant_level) := by
  subst hlen
  constructor
  · intro h
    rw [encodeIseBits_length _ _ h, get_ise_sequence_bitcount, if_pos h]
  · intro h
    rw [get_ise_sequence_bitcount, if_neg (by omega)]
    omega

/-- Witness for C3: a valid level (QUANT_10, ten characters: 10·(1+7/3)
rounds to 34 bits) and an invalid level 33. -/
theorem get_ise_sequence_bitcount_witness :
    get_ise_sequence_bitcount 10 6 =
        (encodeIseBits 6 [0, 1, 2, 3, 4, 5, 6, 7, 8, 9]).length ∧
      129 ≤ get_ise_sequence_bitcount 10 33 :=
  ⟨(get_ise_sequence_bitcount_spec 10 6 [0, 1, 2, 3, 4, 5, 6, 7, 8, 9]
      (by decide)).1 (by decide),
    (get_ise_sequence_bitcount_spec 10 33 [0, 1, 2, 3, 4, 5, 6, 7, 8, 9]
      (by decide)).2 (by decide)⟩

/-! ## Block size descriptor constants (src astcenc_internal.h:69-129) -/

/-- `BLOCK_MAX_PARTITIONINGS` (astcenc_internal.h:76). -/
def BLOCK_MAX_PARTITIONINGS : Nat := 1024

/-- `BLOCK_BAD_BLOCK_MODE` (astcenc_internal.h:97). -/
def BLOCK_BAD_BLOCK_MODE : Nat := 0xFFFF

/-- `WEIGHTS_MAX_BLOCK_MODES` (astcenc_internal.h:109). -/
def WEIGHTS_MAX_BLOCK_MODES : Nat := 2048

/-! ## Partition table indexing (C8)

`block_size_descriptor` stores
`partition_info partitions[(3 * BLOCK_MAX_PARTITIONINGS) + 1]`
(astcenc_internal.h:706); `get_partition_table` returns a pointer into
it, modelled as the start index. -/

/-- Number of entries of `block_size_descriptor::partitions`
(astcenc_internal.h:706). -/
def partitions_size : Nat := 3 * BLOCK_MAX_PARTITIONINGS + 1

/-- Embedded from `block_size_descriptor::get_partition_table`
(astcenc_internal.h:768-776): `if (partition_count == 1)
partition_count = 5; index = (partition_count - 2) *
BLOCK_MAX_PARTITIONINGS; return this->partitions + index;`. -/
def get_partition_table (partition_count : Nat) : Nat :=
  ((if partition_count = 1 then 5 else partition_count) - 2) *
    BLOCK_MAX_PARTITIONINGS

/-- C8: the BSD partition table holds 3·1024+1 entries; for every
partition count p in {2,3,4}, `get_partition_table(p)` returns the
subtable starting at index (p−2)·1024, and `get_partition_table(1)`
returns the single degenerate entry at index 3·1024 (the last entry of
the table). -/
theorem get_partition_table_spec (p : Nat) :
    partitions_size = 3 * 1024 + 1 ∧
      (2 ≤ p → p ≤ 4 → get_partition_table p = (p - 2) * 1024) ∧
      (p = 1 → get_partition_table p = 3 * 1024 ∧
        get_partition_table p < partitions_size) := by
  refine ⟨rfl, ?_, ?_⟩
  · intro h2 h4
    have hne : p ≠ 1 := by omega
    rw [get_partition_table, if_neg hne]
    rfl
  · intro h1
    subst h1
    exact ⟨rfl, by decide⟩

/-- Witness for C8 at p = 3 and p = 1. -/
theorem get_partition_table_witness :
    get_partition_table 3 = (3 - 2) * 1024 ∧
      get_partition_table 1 = 3 * 1024 :=
  ⟨(get_partition_table_spec 3).2.1 (by decide) (by decide),
    ((get_partition_table_spec 1).2.2 rfl).1⟩

/-! ## ParallelManager task assignment (C10)

`ParallelManager` (astcenc_internal.h:203-357).  `get_task_assignment`
touches two fields: the atomic running start counter `m_start_count`
(`std::atomic<unsigned int>`, 32-bit, wrapping) and the total
`m_task_count`.  `fetch_add` returns the previous value and stores the
incremented value modulo 2^32. -/

/-- The state of a `ParallelManager` relevant to task assignment. -/
structure ParallelManager where
  m_start_count : Nat
  m_task_count : Nat

/-- The modulus of `unsigned int` arithmetic. -/
def UINT_MOD : Nat := 2 ^ 32

/-- Embedded from `ParallelManager::get_task_assignment`
(astcenc_internal.h:296-307): `base = m_start_count.fetch_add(granule);
if (base >= m_task_count) { count = 0; return 0; }
count = astc::min(m_task_count - base, granule); return base;`.
Returns `((base, count), updated manager)`. -/
def get_task_assignment (granule : Nat) (m : ParallelManager) :
    (Nat × Nat) × ParallelManager :=
  if m.m_start_count ≥ m.m_task_count then
    ((0, 0), ⟨(m.m_start_count + granule) % UINT_MOD, m.m_task_count⟩)
  else
    ((m.m_start_count, min (m.m_task_count - m.m_start_count) granule),
      ⟨(m.m_start_count + granule) % UINT_MOD, m.m_task_count⟩)

/-- Total number of tasks handed out by a sequence of calls with the
given granules. -/
def runTasks (m : ParallelManager) : List Nat → Nat
  | [] => 0
  | g :: gs =>
    (get_task_assignment g m).1.2 + runTasks (get_task_assignment g m).2 gs

/-- Aggregate bound: as long as the running counter cannot wrap, the
total handed out never exceeds the task count. -/
theorem runTasks_le (gs : List Nat) :
    ∀ m : ParallelManager, m.m_start_count + gs.sum < UINT_MOD →
      runTasks m gs + min m.m_start_count m.m_task_count ≤
        m.m_task_count := by
  induction gs with
  | nil =>
    intro m _
    simp [runTasks]
  | cons g gs ih =>
    intro m h
    rw [List.sum_cons] at h
    rw [runTasks]
    unfold get_task_assignment
    have hmod : (m.m_start_count + g) % UINT_MOD = m.m_start_count + g :=
      Nat.mod_eq_of_lt (by omega)
    by_cases hb : m.m_start_count ≥ m.m_task_count
    · rw [if_pos hb]
      have := ih ⟨(m.m_start_count + g) % UINT_MOD, m.m_task_count⟩
        (by simp only [hmod]; omega)
      simp only [hmod] at this ⊢
      omega
    · rw [if_neg hb]
      have := ih ⟨(m.m_start_count + g) % UINT_MOD, m.m_task_count⟩
        (by simp only [hmod]; omega)
      simp only [hmod] at this ⊢
      omega

/-- Counterexample for C10 as stated: with task count 1, after the
running start counter has passed the total (state start = 2^31 ≥ 1), two
further calls (granules 2^31 then 1) wrap the 32-bit counter back below
the total and the second of them hands out one more task (count = 1, not
0), so the aggregate handed out over a run can exceed the total. -/
theorem get_task_assignment_wrap_counterexample :
    (2 ^ 31 ≥ (1 : Nat)) ∧
      (get_task_assignment 1
          (get_task_assignment (2 ^ 31) ⟨2 ^ 31, 1⟩).2).1.2 = 1 := by
  constructor
  · exact Nat.one_le_two_pow
  · decide

/-- C10 (amended): `get_task_assignment` never over-assigns in a single
call: count ≤ granule and base + count ≤ task count; a call made while
the running start counter is at or past the task count returns count = 0
with base 0; and — provided the 32-bit start counter cannot wrap during
the run (sum of granules < 2^32, the unamended claim fails on wraparound
as the counterexample shows) — the total handed out across all calls
from a reset manager never exceeds the task count. -/
theorem get_task_assignment_spec (granule : Nat) (m : ParallelManager)
    (gs : List Nat) :
    ((get_task_assignment granule m).1.2 ≤ granule ∧
      (get_task_assignment granule m).1.1 +
        (get_task_assignment granule m).1.2 ≤ m.m_task_count) ∧
    (m.m_start_count ≥ m.m_task_count →
      (get_task_assignment granule m).1.2 = 0 ∧
        (get_task_assignment granule m).1.1 = 0) ∧
    (m.m_start_count = 0 → gs.sum < UINT_MOD →
      runTasks m gs ≤ m.m_task_count) := by
  refine ⟨?_, ?_, ?_⟩
  · unfold get_task_assignment
    by_cases hb : m.m_start_count ≥ m.m_task_count
    · rw [if_pos hb]
      simp
    · rw [if_neg hb]
      simp only []
      omega
  · intro hb
    unfold get_task_assignment
    rw [if_pos hb]
    exact ⟨rfl, rfl⟩
  · intro h0 hsum
    have := runTasks_le gs m (by omega)
    omega

/-- Witness for C10: a finished manager returns (0, 0); a fresh manager
with 3 tasks hands out at most 3 over granule-2 calls. -/
theorem get_task_assignment_witness :
    ((get_task_assignment 5 ⟨7, 3⟩).1.2 = 0 ∧
        (get_task_assignment 5 ⟨7, 3⟩).1.1 = 0) ∧
      runTasks ⟨0, 3⟩ [2, 2, 2] ≤ 3 :=
  ⟨(get_task_assignment_spec 5 ⟨7, 3⟩ []).2.1 (by decide),
    (get_task_assignment_spec 1 ⟨0, 3⟩ [2, 2, 2]).2.2 rfl (by decide)⟩

/-! ## Packed block-mode table (C5)

`block_size_descriptor` stores the active block modes contiguously in
`block_modes` "in incrementing packed value order" and maps every raw
11-bit mode to its packed index or `BLOCK_BAD_BLOCK_MODE` through
`block_mode_packed_index` (astcenc_internal.h:650-703).  The
initialization (`init_block_size_descriptor`, declared only) is
modelled from spec §4.3 steps 1-4; which raw modes are kept depends on
block legality and the percentile filter, abstracted as a keep
predicate. -/

/-- The fields of the source `block_mode` record needed here
(astcenc_internal.h:597-623). -/
structure block_mode where
  mode_index : Nat

/-- The block-mode tables of a `block_size_descriptor`
(astcenc_internal.h:684-703). -/
structure bsd_modes where
  block_mode_count : Nat
  block_modes : List block_mode
  block_mode_packed_index : Nat → Nat

/-- Modelled from the spec: §4.3 steps 1-4 — enumerate every raw 11-bit
block mode in increasing order, keep the legal/enabled ones (the keep
predicate abstracts legality and the percentile filter, whose data lives
outside the header), store them contiguously, and fill the 2048-entry
packed-index table with the packed array index or BAD. -/
def init_block_modes (keep : Nat → Bool) : bsd_modes :=
  { block_mode_count :=
      ((List.range WEIGHTS_MAX_BLOCK_MODES).filter keep).length
    block_modes :=
      ((List.range WEIGHTS_MAX_BLOCK_MODES).filter keep).map
        (fun m => ⟨m⟩)
    block_mode_packed_index := fun m =>
      if m < WEIGHTS_MAX_BLOCK_MODES ∧ keep m then
        ((List.range WEIGHTS_MAX_BLOCK_MODES).filter keep).indexOf m
      else BLOCK_BAD_BLOCK_MODE }

/-- C5: in every initialized block size descriptor, for every raw 11-bit
block mode m (0..2047), `block_mode_packed_index[m]` is either the BAD
sentinel 0xFFFF or an index strictly less than `block_mode_count` such
that `block_modes[block_mode_packed_index[m]].mode_index = m` (this is
the precondition `get_block_mode` asserts at astcenc_internal.h:722-727). -/
theorem block_mode_packed_index_spec (keep : Nat → Bool) (m : Nat)
    (hm : m < WEIGHTS_MAX_BLOCK_MODES)
    (hne : (init_block_modes keep).block_mode_packed_index m ≠
      BLOCK_BAD_BLOCK_MODE) :
    (init_block_modes keep).block_mode_packed_index m <
        (init_block_modes keep).block_mode_count ∧
      ((init_block_modes keep).block_modes.getD
          ((init_block_modes keep).block_mode_packed_index m)
          ⟨0⟩).mode_index = m := by
  by_cases hk : keep m
  · have hcond : m < WEIGHTS_MAX_BLOCK_MODES ∧ keep m = true := ⟨hm, hk⟩
    have hmem : m ∈ (List.range WEIGHTS_MAX_BLOCK_MODES).filter keep :=
      List.mem_filter.mpr ⟨List.mem_range.mpr hm, hk⟩
    have hidx :
        ((List.range WEIGHTS_MAX_BLOCK_MODES).filter keep).indexOf m <
          ((List.range WEIGHTS_MAX_BLOCK_MODES).filter keep).length :=
      List.indexOf_lt_length.mpr hmem
    simp only [init_block_modes, if_pos hcond]
    refine ⟨hidx, ?_⟩
    rw [List.getD_eq_getElem _ _ (by simpa using hidx)]
    rw [List.getElem_map]
    exact List.getElem_indexOf hidx
  · exfalso
    apply hne
    simp only [init_block_modes]
    rw [if_neg (by simp [hk])]

/-- Witness for C5: a concrete keep predicate (every third raw mode) and
raw mode 6, whose packed index is 2. -/
theorem block_mode_packed_index_witness :
    (init_block_modes (fun m => m % 3 == 0)).block_mode_packed_index 6 <
        (init_block_modes (fun m => m % 3 == 0)).block_mode_count ∧
      ((init_block_modes (fun m => m % 3 == 0)).block_modes.getD
          ((init_block_modes
            (fun m => m % 3 == 0)).block_mode_packed_index 6)
          ⟨0⟩).mode_index = 6 :=
  block_mode_packed_index_spec (fun m => m % 3 == 0) 6 (by decide)
    (by decide)

/-! ## Decimation bilinear factors (C6, C7)

`decimation_info` (astcenc_internal.h:543-592) stores, per texel, up to
four contributing weight indices with integer factors in 0..16
(`texel_weights_int_4t`) and float factors in 0..1
(`texel_weights_float_4t`).  The builder lives outside the header; it is
modelled from spec §4.3 step 2 using the canonical ASTC bilinear
weight-infill network.  Floats are modelled as exact rationals. -/

/-- The fields of `decimation_info` the claims are about; the first
index of each `..._4t` table is the contribution slot 0..3. -/
structure decimation_info where
  texel_count : Nat
  weight_count : Nat
  texel_weights_4t : Nat → Nat → Nat
  texel_weights_int_4t : Nat → Nat → Nat
  texel_weights_float_4t : Nat → Nat → ℚ

/-- Modelled from the spec: the canonical ASTC weight-infill grid
position of texel coordinate `c` (block dim `B`, grid dim `N`), in
4.6 fixed point: `D = (1024 + B/2)/(B-1)`, `g = (D·c·(N-1) + 32) >> 6`. -/
def gridPos (B N c : Nat) : Nat :=
  ((1024 + B / 2) / (B - 1) * c * (N - 1) + 32) / 64

/-- Canonical infill factor `w11 = (fs·ft + 8) >> 4`. -/
def w11f (fs ft : Nat) : Nat := (fs * ft + 8) / 16

/-- Canonical infill factor `w10 = ft − w11`. -/
def w10f (fs ft : Nat) : Nat := ft - w11f fs ft

/-- Canonical infill factor `w01 = fs − w11`. -/
def w01f (fs ft : Nat) : Nat := fs - w11f fs ft

/-- Canonical infill factor `w00 = 16 − fs − ft + w11`. -/
def w00f (fs ft : Nat) : Nat := 16 + w11f fs ft - fs - ft

/-- The four canonical bilinear factors always sum to 16. -/
theorem wf_sum :
    ∀ fs < 16, ∀ ft < 16,
      w00f fs ft + w01f fs ft + w10f fs ft + w11f fs ft = 16 := by decide

/-- Modelled from the spec: §4.3 step 2 — build the decimation tables
for a `Bw×Bh` block with an `N×M` weight grid: texel `i` has block
coordinates `(i % Bw, i / Bw)`; its grid position splits into a weight
cell `(js, jt)` and 4-bit fractions `(fs, ft)`; the four contributing
weights are the cell corners with the canonical bilinear factors; the
float factors are the integer factors divided by 16. -/
def init_decimation_info (Bw Bh N M : Nat) : decimation_info :=
  { texel_count := Bw * Bh
    weight_count := N * M
    texel_weights_4t := fun j i =>
      let js := gridPos Bw N (i % Bw) / 16
      let jt := gridPos Bh M (i / Bw) / 16
      match j with
      | 0 => js + jt * N
      | 1 => js + jt * N + 1
      | 2 => js + (jt + 1) * N
      | 3 => js + (jt + 1) * N + 1
      | _ => 0
    texel_weights_int_4t := fun j i =>
      let fs := gridPos Bw N (i % Bw) % 16
      let ft := gridPos Bh M (i / Bw) % 16
      match j with
      | 0 => w00f fs ft
      | 1 => w01f fs ft
      | 2 => w10f fs ft
      | 3 => w11f fs ft
      | _ => 0
    texel_weights_float_4t := fun j i =>
      ((fun j i =>
        let fs := gridPos Bw N (i % Bw) % 16
        let ft := gridPos Bh M (i / Bw) % 16
        match j with
        | 0 => w00f fs ft
        | 1 => w01f fs ft
        | 2 => w10f fs ft
        | 3 => w11f fs ft
        | _ => 0 : Nat → Nat → Nat) j i : ℚ) / 16 }

/-- C6: for every decimation mode built by BSD initialization (any block
dims and any weight grid dims) and every texel t, the four integer
bilinear factors sum exactly to 16 and the four float bilinear factors
sum exactly to 1 (the spec allows 1e-6 slack; the rational model is
exact). -/
theorem decimation_factor_sums (Bw Bh N M t : Nat) :
    (init_decimation_info Bw Bh N M).texel_weights_int_4t 0 t +
        (init_decimation_info Bw Bh N M).texel_weights_int_4t 1 t +
        (init_decimation_info Bw Bh N M).texel_weights_int_4t 2 t +
        (init_decimation_info Bw Bh N M).texel_weights_int_4t 3 t = 16 ∧
      (init_decimation_info Bw Bh N M).texel_weights_float_4t 0 t +
          (init_decimation_info Bw Bh N M).texel_weights_float_4t 1 t +
          (init_decimation_info Bw Bh N M).texel_weights_float_4t 2 t +
          (init_decimation_info Bw Bh N M).texel_weights_float_4t 3 t = 1 := by
  have h := wf_sum (gridPos Bw N (t % Bw) % 16) (by omega)
    (gridPos Bh M (t / Bw) % 16) (by omega)
  constructor
  · simp only [init_decimation_info]
    exact h
  · simp only [init_decimation_info]
    have hq : ((w00f (gridPos Bw N (t % Bw) % 16)
          (gridPos Bh M (t / Bw) % 16) : ℚ) +
        w01f (gridPos Bw N (t % Bw) % 16) (gridPos Bh M (t / Bw) % 16) +
        w10f (gridPos Bw N (t % Bw) % 16) (gridPos Bh M (t / Bw) % 16) +
        w11f (gridPos Bw N (t % Bw) % 16) (gridPos Bh M (t / Bw) % 16)) =
        16 := by
      exact_mod_cast h
    calc (w00f (gridPos Bw N (t % Bw) % 16)
            (gridPos Bh M (t / Bw) % 16) : ℚ) / 16 +
          (w01f (gridPos Bw N (t % Bw) % 16)
            (gridPos Bh M (t / Bw) % 16) : ℚ) / 16 +
          (w10f (gridPos Bw N (t % Bw) % 16)
            (gridPos Bh M (t / Bw) % 16) : ℚ) / 16 +
          (w11f (gridPos Bw N (t % Bw) % 16)
            (gridPos Bh M (t / Bw) % 16) : ℚ) / 16 =
        ((w00f (gridPos Bw N (t % Bw) % 16)
            (gridPos Bh M (t / Bw) % 16) : ℚ) +
          w01f (gridPos Bw N (t % Bw) % 16) (gridPos Bh M (t / Bw) % 16) +
          w10f (gridPos Bw N (t % Bw) % 16) (gridPos Bh M (t / Bw) % 16) +
          w11f (gridPos Bw N (t % Bw) % 16)
            (gridPos Bh M (t / Bw) % 16)) / 16 := by ring
      _ = 16 / 16 := by rw [hq]
      _ = 1 := by norm_num

/-- Embedded from `bilinear_infill` (astcenc_internal.h:1892-1901):
the infilled weight of a texel is the sum over the four contribution
slots of (decimated weight value × float bilinear factor).  `float` is
modelled as exact rationals. -/
def bilinear_infill (di : decimation_info) (weights : Nat → ℚ)
    (index : Nat) : ℚ :=
  (weights (di.texel_weights_4t 0 index) *
      di.texel_weights_float_4t 0 index +
    weights (di.texel_weights_4t 1 index) *
      di.texel_weights_float_4t 1 index) +
  (weights (di.texel_weights_4t 2 index) *
      di.texel_weights_float_4t 2 index +
    weights (di.texel_weights_4t 3 index) *
      di.texel_weights_float_4t 3 index)

/-- C7: for every decimation mode built by the BSD initialization, every
weight array, and every texel index, `bilinear_infill` (which multiplies
by the float factors) computes exactly the 4-weight bilinear sum of the
contributing decimated weights with the integer factors summing to 16,
divided by 16 at the end. -/
theorem bilinear_infill_int_formulation (Bw Bh N M : Nat)
    (weights : Nat → ℚ) (index : Nat) :
    bilinear_infill (init_decimation_info Bw Bh N M) weights index =
      (weights ((init_decimation_info Bw Bh N M).texel_weights_4t 0 index) *
          (init_decimation_info Bw Bh N M).texel_weights_int_4t 0 index +
        weights ((init_decimation_info Bw Bh N M).texel_weights_4t 1 index) *
          (init_decimation_info Bw Bh N M).texel_weights_int_4t 1 index +
        weights ((init_decimation_info Bw Bh N M).texel_weights_4t 2 index) *
          (init_decimation_info Bw Bh N M).texel_weights_int_4t 2 index +
        weights ((init_decimation_info Bw Bh N M).texel_weights_4t 3 index) *
          (init_decimation_info Bw Bh N M).texel_weights_int_4t 3 index) /
        16 := by
  simp only [bilinear_infill, init_decimation_info]
  ring

/-! ## The symbolic and physical block representations (C1, C4)

`symbolic_compressed_block` (astcenc_internal.h:1170-1224) and
`physical_compressed_block` (16 raw bytes, astcenc_internal.h:1231-1235).
The physical block is modelled as its 128 bits, least-significant bit of
byte 0 first.  `symbolic_to_physical` and `physical_to_symbolic` are
declared only (astcenc_internal.h:2272-2290); they are modelled from
spec §4.9. -/

/-- `SYM_BTYPE_ERROR` (astcenc_internal.h:1152). -/
def SYM_BTYPE_ERROR : Nat := 0

/-- `SYM_BTYPE_CONST_F16` (astcenc_internal.h:1155). -/
def SYM_BTYPE_CONST_F16 : Nat := 1

/-- `SYM_BTYPE_CONST_U16` (astcenc_internal.h:1158). -/
def SYM_BTYPE_CONST_U16 : Nat := 2

/-- `SYM_BTYPE_NONCONST` (astcenc_internal.h:1161). -/
def SYM_BTYPE_NONCONST : Nat := 3

/-- The symbolic compressed block (astcenc_internal.h:1170-1224).
Arrays are modelled as lists: `color_formats` has one 4-bit format per
partition; `color_values` is the flattened sequence of quantized
endpoint integers of all partitions in order (the BISE characters of the
wire endpoint stream); `weights` is the sequence of quantized weight
characters in wire order (for dual-plane blocks the two planes
interleaved, plane-2 values coming from offset `WEIGHTS_PLANE2_OFFSET`
of the source array).  The float `errorval` is search state, not wire
content, and is omitted. -/
structure symbolic_compressed_block where
  block_type : Nat
  partition_count : Nat
  color_formats_matched : Bool
  plane2_component : Int
  block_mode : Nat
  partition_index : Nat
  color_formats : List Nat
  quant_mode : Nat
  constant_color : List Nat
  color_values : List Nat
  weights : List Nat

/-- The per-block-mode data the transformer consults in the block size
descriptor: the decimation grid weight count, the weight quant level,
and the dual-plane flag (src `block_mode` / `decimation_info`,
astcenc_internal.h:597-623 and 543-592).  A BSD is abstracted as the
partial map from raw 11-bit mode to this data; raw modes whose packed
index is `BLOCK_BAD_BLOCK_MODE` map to `none`. -/
structure bsd_mode_info where
  weight_count : Nat
  quant_mode : Nat
  is_dual_plane : Bool

/-- Number of quantized endpoint integers used by an endpoint format:
`2 · (format / 4 + 1)` — formats 0-3 store one pair, 4-7 two pairs,
8-11 three pairs, 12-15 four pairs (spec §3: the 16 formats in wire
order; §4.8 "2 · endpoint_ints_per_partition"). -/
def intsOfFormat (f : Nat) : Nat := 2 * (f / 4 + 1)

/-- Total endpoint integers of a block: sum over partitions. -/
def intsOfFormats (fs : List Nat) : Nat := (fs.map intsOfFormat).sum

/-- Modelled from the spec: §4.8 step 2 / the `quant_mode_table`
(declared astcenc_internal.h:1489) — the highest color quant level whose
BISE cost for `ints` characters fits in `bits`, or `none` when even the
lowest level does not fit. -/
def colorQuantFor (ints bits : Nat) : Option Nat :=
  (List.range 21).reverse.find?
    (fun lv => get_ise_sequence_bitcount ints lv ≤ bits)

/-- The per-partition 4-bit endpoint format fields, in partition order
(spec §4.9 "per-partition 4-bit endpoint format"). -/
def formatsBits : List Nat → List Bool
  | [] => []
  | f :: fs => natToBits 4 f ++ formatsBits fs

theorem formatsBits_length (fs : List Nat) :
    (formatsBits fs).length = 4 * fs.length := by
  induction fs with
  | nil => rfl
  | cons f fs ih =>
    simp only [formatsBits, List.length_append, natToBits_length,
      List.length_cons, ih]
    ring

/-- The number of weight characters on the wire: both planes of a
dual-plane block share the decimated grid. -/
def wireWeightCount (bm : bsd_mode_info) : Nat :=
  bm.weight_count * (if bm.is_dual_plane then 2 else 1)

/-- The canonical void-extent block (spec §4.9: "Error or constant-color
blocks use the reserved high-bit patterns defined by the ASTC spec
(void-extent). Constant-color blocks carry 4×16-bit color at a fixed
offset, with the fp16/unorm16 choice determined by ... the block-type
tag"): the 9-bit marker `0x1FC`, the dynamic-range flag, the reserved
`11` bits, all-ones extent coordinates, then the color at bit 64. -/
def constBlockBits (is_f16 : Bool) (color : List Nat) : List Bool :=
  natToBits 9 508 ++ [is_f16] ++ natToBits 2 3 ++ List.replicate 52 true ++
    (natToBits 16 (color.getD 0 0) ++ natToBits 16 (color.getD 1 0) ++
      natToBits 16 (color.getD 2 0) ++ natToBits 16 (color.getD 3 0))

/-- Modelled from the spec: §4.9 — convert a symbolic block to its
128-bit physical encoding (declared astcenc_internal.h:2272 without a
body).  Non-constant layout: 11-bit block mode at the low end,
partition-count−1, then for multi-partition blocks the 10-bit partition
seed and the per-partition 4-bit endpoint formats, then the
BISE-packed endpoint integers at the selected color quant; weights are
BISE-packed at the weight quant and stored bit-reversed from the high
end of the block downward; the 2-bit plane-2 component sits immediately
below the weights when dual-plane is set; bits in between are zero.
Error blocks are written as the unorm16 void-extent with the error
color, per §4.9 "Error or constant-color blocks use the reserved
high-bit patterns". -/
def symbolic_to_physical (bsd : Nat → Option bsd_mode_info)
    (scb : symbolic_compressed_block) : List Bool :=
  if scb.block_type = SYM_BTYPE_CONST_F16 then
    constBlockBits true scb.constant_color
  else if scb.block_type = SYM_BTYPE_CONST_U16 then
    constBlockBits false scb.constant_color
  else if scb.block_type = SYM_BTYPE_ERROR then
    constBlockBits false [65535, 0, 65535, 65535]
  else
    match bsd scb.block_mode with
    | none => List.replicate 128 false
    | some bm =>
      natToBits 11 scb.block_mode ++
        (natToBits 2 (scb.partition_count - 1) ++
          ((if 2 ≤ scb.partition_count then
              natToBits 10 scb.partition_index
            else []) ++
            (formatsBits scb.color_formats ++
              (encodeIseBits scb.quant_mode scb.color_values ++
                (List.replicate
                    (128 -
                      get_ise_sequence_bitcount (wireWeightCount bm)
                        bm.quant_mode -
                      (if bm.is_dual_plane then 2 else 0) -
                      (13 + (if 2 ≤ scb.partition_count then 10 else 0) +
                        4 * scb.color_formats.length) -
                      (encodeIseBits scb.quant_mode
                        scb.color_values).length)
                    false ++
                  ((if bm.is_dual_plane then
                      natToBits 2 scb.plane2_component.toNat
                    else []) ++
                    (encodeIseBits bm.quant_mode scb.weights).reverse))))))

/-- The all-defaults error symbolic block produced by the decoder on a
malformed physical block. -/
def errorBlock : symbolic_compressed_block :=
  { block_type := SYM_BTYPE_ERROR
    partition_count := 0
    color_formats_matched := false
    plane2_component := -1
    block_mode := 0
    partition_index := 0
    color_formats := []
    quant_mode := 0
    constant_color := []
    color_values := []
    weights := [] }

/-- Modelled from the spec: §4.9 — convert a 128-bit physical block to a
symbolic block (declared astcenc_internal.h:2287 without a body).
"This function can cope with arbitrary input data; output blocks will be
flagged as an error block if the encoding is invalid."  Checks: a
non-void-extent block mode whose packed index is BAD is an error; a
dual-plane block with 4 partitions is an error (inconsistent partition
count); a weight budget outside `BLOCK_MIN_WEIGHT_BITS ..
BLOCK_MAX_WEIGHT_BITS` is an error; endpoint integers that do not fit
the residual color bits at any quant level are an error. -/
def physical_to_symbolic (bsd : Nat → Option bsd_mode_info)
    (p : List Bool) : symbolic_compressed_block :=
  let mode := bitsToNat (p.take 11)
  if mode % 512 = 508 then
    { errorBlock with
        block_type :=
          if mode / 512 % 2 = 1 then SYM_BTYPE_CONST_F16
          else SYM_BTYPE_CONST_U16
        constant_color :=
          [bitsToNat ((p.drop 64).take 16), bitsToNat ((p.drop 80).take 16),
            bitsToNat ((p.drop 96).take 16),
            bitsToNat ((p.drop 112).take 16)] }
  else
    match bsd mode with
    | none => errorBlock
    | some bm =>
      let pc := bitsToNat ((p.drop 11).take 2) + 1
      if bm.is_dual_plane ∧ pc = 4 then errorBlock
      else
        let wbits :=
          get_ise_sequence_bitcount (wireWeightCount bm) bm.quant_mode
        if wbits < 24 ∨ 96 < wbits then errorBlock
        else
          let r2 := (p.drop 11).drop 2
          let r3 := if 2 ≤ pc then r2.drop 10 else r2
          let formats :=
            (List.range pc).map
              (fun i => bitsToNat ((r3.drop (4 * i)).take 4))
          let ints := intsOfFormats formats
          let belowWeights :=
            128 - wbits - (if bm.is_dual_plane then 2 else 0)
          let hdrlen := 13 + (if 2 ≤ pc then 10 else 0) + 4 * pc
          match colorQuantFor ints (belowWeights - hdrlen) with
          | none => errorBlock
          | some cq =>
            { block_type := SYM_BTYPE_NONCONST
              partition_count := pc
              color_formats_matched :=
                formats.all (fun f => f = formats.getD 0 0)
              plane2_component :=
                if bm.is_dual_plane then
                  (bitsToNat ((p.drop (128 - wbits - 2)).take 2) : Int)
                else -1
              block_mode := mode
              partition_index :=
                if 2 ≤ pc then bitsToNat (r2.take 10) else 0
              color_formats := formats
              quant_mode := cq
              constant_color := []
              color_values :=
                decodeIseBits cq ints
                  ((r3.drop (4 * pc)).take
                    (get_ise_sequence_bitcount ints cq))
              weights :=
                decodeIseBits bm.quant_mode (wireWeightCount bm)
                  (((p.drop (128 - wbits)).take wbits).reverse) }


theorem colorQuantFor_spec (ints bits lv : Nat)
    (h : colorQuantFor ints bits = some lv) :
    lv < 21 ∧ get_ise_sequence_bitcount ints lv ≤ bits := by
  unfold colorQuantFor at h
  have hmem := List.mem_of_find?_eq_some h
  have hpred := List.find?_some h
  constructor
  · exact List.mem_range.mp (List.mem_reverse.mp hmem)
  · simpa using hpred

theorem intsOfFormats_pos (fs : List Nat) (h : 1 ≤ fs.length) :
    2 ≤ intsOfFormats fs := by
  cases fs with
  | nil => simp at h
  | cons f fs =>
    have : 2 ≤ intsOfFormat f := by
      unfold intsOfFormat
      omega
    simp only [intsOfFormats, List.map_cons, List.sum_cons]
    have : (fs.map intsOfFormat).sum ≥ 0 := Nat.zero_le _
    omega

theorem iseClass_total :
    ∀ lv < 21, 1 ≤ iseBits lv ∨ iseTrits lv = 1 ∨ iseQuints lv = 1 := by
  decide

theorem get_ise_sequence_bitcount_pos (N lv : Nat) (hN : 1 ≤ N)
    (hlv : lv < 21) : 1 ≤ get_ise_sequence_bitcount N lv := by
  have hcls := iseClass_total lv hlv
  rw [get_ise_sequence_bitcount, if_pos hlv]
  rcases hcls with h | h | h
  · have := Nat.le_mul_of_pos_right N (show 0 < iseBits lv by omega)
    omega
  · rw [h]
    omega
  · rw [h]
    omega

theorem formatsBits_readback (fs : List Nat) (rest : List Bool) (n : Nat)
    (hn : n = fs.length) (hf : ∀ f ∈ fs, f < 16) :
    (List.range n).map
      (fun i => bitsToNat (((formatsBits fs ++ rest).drop (4 * i)).take 4)) =
      fs := by
  subst hn
  induction fs generalizing rest with
  | nil => rfl
  | cons f fs ih =>
    rw [List.length_cons, List.range_succ_eq_map, List.map_cons, List.map_map]
    have hassoc : formatsBits (f :: fs) ++ rest =
        natToBits 4 f ++ (formatsBits fs ++ rest) := by
      simp [formatsBits, List.append_assoc]
    congr 1
    · rw [hassoc]
      simp only [Nat.mul_zero, List.drop_zero]
      rw [take_append_len _ _ 4 (natToBits_length 4 f), bitsToNat_natToBits]
      exact Nat.mod_eq_of_lt (by have := hf f (by simp); omega)
    · have he : ∀ i ∈ List.range fs.length,
          ((fun i => bitsToNat
            (((formatsBits (f :: fs) ++ rest).drop (4 * i)).take 4)) ∘
              Nat.succ) i =
          (fun i => bitsToNat
            (((formatsBits fs ++ rest).drop (4 * i)).take 4)) i := by
        intro i _
        show bitsToNat
            (((formatsBits (f :: fs) ++ rest).drop (4 * (i + 1))).take 4) = _
        rw [hassoc, show 4 * (i + 1) = (natToBits 4 f).length + 4 * i from by
          rw [natToBits_length]; omega, List.drop_append]
      rw [List.map_congr_left he, ih _ (fun g hg => hf g (by simp [hg]))]

theorem chain_parse (mode pcb seed fmt ep gap p2b wrev : List Bool)
    (n10 nP2 W : Nat)
    (hm : mode.length = 11) (hp : pcb.length = 2)
    (hseed : seed.length = n10) (hp2 : p2b.length = nP2)
    (hw : wrev.length = W)
    (hlow : 11 + 2 + n10 + fmt.length + ep.length + gap.length + nP2 + W =
      128) :
    (mode ++ (pcb ++ (seed ++ (fmt ++ (ep ++ (gap ++ (p2b ++
        wrev))))))).take 11 = mode ∧
    ((mode ++ (pcb ++ (seed ++ (fmt ++ (ep ++ (gap ++ (p2b ++
        wrev))))))).drop 11).take 2 = pcb ∧
    ((mode ++ (pcb ++ (seed ++ (fmt ++ (ep ++ (gap ++ (p2b ++
        wrev))))))).drop 11).drop 2 =
      seed ++ (fmt ++ (ep ++ (gap ++ (p2b ++ wrev)))) ∧
    (seed ++ (fmt ++ (ep ++ (gap ++ (p2b ++ wrev))))).take n10 = seed ∧
    (seed ++ (fmt ++ (ep ++ (gap ++ (p2b ++ wrev))))).drop n10 =
      fmt ++ (ep ++ (gap ++ (p2b ++ wrev))) ∧
    ((mode ++ (pcb ++ (seed ++ (fmt ++ (ep ++ (gap ++ (p2b ++
        wrev))))))).drop (128 - W - nP2)).take nP2 = p2b ∧
    ((mode ++ (pcb ++ (seed ++ (fmt ++ (ep ++ (gap ++ (p2b ++
        wrev))))))).drop (128 - W)).take W = wrev := by
  refine ⟨take_append_len _ _ _ hm, ?_, ?_,
    take_append_len _ _ _ hseed, drop_append_len _ _ _ hseed, ?_, ?_⟩
  · rw [drop_append_len _ _ _ hm, take_append_len _ _ _ hp]
  · rw [drop_append_len _ _ _ hm, drop_append_len _ _ _ hp]
  · have hre : mode ++ (pcb ++ (seed ++ (fmt ++ (ep ++ (gap ++ (p2b ++
        wrev)))))) =
        (mode ++ (pcb ++ (seed ++ (fmt ++ (ep ++ gap))))) ++ (p2b ++ wrev) :=
      by simp [List.append_assoc]
    have hlen : (mode ++ (pcb ++ (seed ++ (fmt ++ (ep ++ gap))))).length =
        128 - W - nP2 := by
      simp only [List.length_append]
      omega
    rw [hre, drop_append_len _ _ _ hlen, take_append_len _ _ _ hp2]
  · have hre : mode ++ (pcb ++ (seed ++ (fmt ++ (ep ++ (gap ++ (p2b ++
        wrev)))))) =
        (mode ++ (pcb ++ (seed ++ (fmt ++ (ep ++ (gap ++ p2b)))))) ++
          wrev := by simp [List.append_assoc]
    have hlen : (mode ++ (pcb ++ (seed ++ (fmt ++ (ep ++ (gap ++
        p2b)))))).length = 128 - W := by
      simp only [List.length_append]
      omega
    rw [hre, drop_append_len _ _ _ hlen, ← hw, List.take_length]

theorem chain_parse7 (mode pcb fmt ep gap p2b wrev : List Bool)
    (nP2 W : Nat)
    (hm : mode.length = 11) (hp : pcb.length = 2)
    (hp2 : p2b.length = nP2) (hw : wrev.length = W)
    (hlow : 11 + 2 + fmt.length + ep.length + gap.length + nP2 + W = 128) :
    (mode ++ (pcb ++ (fmt ++ (ep ++ (gap ++ (p2b ++ wrev)))))).take 11 =
      mode ∧
    ((mode ++ (pcb ++ (fmt ++ (ep ++ (gap ++ (p2b ++
        wrev)))))).drop 11).take 2 = pcb ∧
    ((mode ++ (pcb ++ (fmt ++ (ep ++ (gap ++ (p2b ++
        wrev)))))).drop 11).drop 2 = fmt ++ (ep ++ (gap ++ (p2b ++ wrev))) ∧
    ((mode ++ (pcb ++ (fmt ++ (ep ++ (gap ++ (p2b ++
        wrev)))))).drop (128 - W - nP2)).take nP2 = p2b ∧
    ((mode ++ (pcb ++ (fmt ++ (ep ++ (gap ++ (p2b ++
        wrev)))))).drop (128 - W)).take W = wrev := by
  have h := chain_parse mode pcb [] fmt ep gap p2b wrev 0 nP2 W hm hp rfl
    hp2 hw (by simpa using hlow)
  simpa using h

/-- The constraints an encoder-produced non-constant symbolic block
satisfies. -/
def producible (bsd : Nat → Option bsd_mode_info)
    (s : symbolic_compressed_block) : Prop :=
  s.block_type = SYM_BTYPE_NONCONST ∧
  s.block_mode < 2048 ∧
  s.block_mode % 512 ≠ 508 ∧
  1 ≤ s.partition_count ∧ s.partition_count ≤ 4 ∧
  s.partition_index < 1024 ∧
  s.color_formats.length = s.partition_count ∧
  (∀ f ∈ s.color_formats, f < 16) ∧
  s.color_values.length = intsOfFormats s.color_formats ∧
  (∀ c ∈ s.color_values, c < get_quant_level s.quant_mode) ∧
  match bsd s.block_mode with
  | none => False
  | some bm =>
      bm.quant_mode < 21 ∧
      (bm.is_dual_plane = true → s.partition_count ≤ 3) ∧
      (if bm.is_dual_plane then
        0 ≤ s.plane2_component ∧ s.plane2_component < 4
       else s.plane2_component = -1) ∧
      s.weights.length = wireWeightCount bm ∧
      (∀ w ∈ s.weights, w < get_quant_level bm.quant_mode) ∧
      24 ≤ get_ise_sequence_bitcount (wireWeightCount bm) bm.quant_mode ∧
      get_ise_sequence_bitcount (wireWeightCount bm) bm.quant_mode ≤ 96 ∧
      colorQuantFor (intsOfFormats s.color_formats)
        (128 - get_ise_sequence_bitcount (wireWeightCount bm) bm.quant_mode -
          (if bm.is_dual_plane then 2 else 0) -
          (13 + (if 2 ≤ s.partition_count then 10 else 0) +
            4 * s.partition_count)) = some s.quant_mode

theorem p2s_s2p_eq (bsd : Nat → Option bsd_mode_info)
    (s : symbolic_compressed_block) (hv : producible bsd s) :
    physical_to_symbolic bsd (symbolic_to_physical bsd s) =
      { s with
          color_formats_matched :=
            s.color_formats.all (fun f => f = s.color_formats.getD 0 0)
          constant_color := []
          partition_index :=
            if 2 ≤ s.partition_count then s.partition_index else 0 } := by
  obtain ⟨hbt, hmode, hnve, hpcl, hpcu, hpi, hflen, hfrange, hcvlen,
    hcvrange, hrest⟩ := hv
  cases hbsd : bsd s.block_mode with
  | none =>
    rw [hbsd] at hrest
    exact hrest.elim
  | some bm =>
    rw [hbsd] at hrest
    obtain ⟨hq21, hdual3, hp2c, hwlen, hwrange, hw24, hw96, hcq⟩ := hrest
    have hQM : s.quant_mode < 21 := (colorQuantFor_spec _ _ _ hcq).1
    have hfit := (colorQuantFor_spec _ _ _ hcq).2
    have hep : (encodeIseBits s.quant_mode s.color_values).length =
        get_ise_sequence_bitcount (intsOfFormats s.color_formats)
          s.quant_mode := by
      rw [encodeIseBits_length _ _ hQM, hcvlen, get_ise_sequence_bitcount,
        if_pos hQM]
    have hwenc : (encodeIseBits bm.quant_mode s.weights).length =
        get_ise_sequence_bitcount (wireWeightCount bm) bm.quant_mode := by
      rw [encodeIseBits_length _ _ hq21, hwlen, get_ise_sequence_bitcount,
        if_pos hq21]
    have hints2 : 2 ≤ intsOfFormats s.color_formats :=
      intsOfFormats_pos _ (by omega)
    have hepos : 1 ≤ get_ise_sequence_bitcount (intsOfFormats s.color_formats)
        s.quant_mode :=
      get_ise_sequence_bitcount_pos _ _ (by omega) hQM
    have hbudget : 13 + (if 2 ≤ s.partition_count then 10 else 0) +
        4 * s.partition_count + (if bm.is_dual_plane then 2 else 0) +
        get_ise_sequence_bitcount (intsOfFormats s.color_formats)
          s.quant_mode +
        get_ise_sequence_bitcount (wireWeightCount bm) bm.quant_mode ≤
        128 := by
      omega
    have hP : symbolic_to_physical bsd s =
        natToBits 11 s.block_mode ++
          (natToBits 2 (s.partition_count - 1) ++
            ((if 2 ≤ s.partition_count then natToBits 10 s.partition_index
              else []) ++
              (formatsBits s.color_formats ++
                (encodeIseBits s.quant_mode s.color_values ++
                  (List.replicate
                      (128 -
                        get_ise_sequence_bitcount (wireWeightCount bm)
                          bm.quant_mode -
                        (if bm.is_dual_plane then 2 else 0) -
                        (13 + (if 2 ≤ s.partition_count then 10 else 0) +
                          4 * s.color_formats.length) -
                        (encodeIseBits s.quant_mode s.color_values).length)
                      false ++
                    ((if bm.is_dual_plane then
                        natToBits 2 s.plane2_component.toNat
                      else []) ++
                      (encodeIseBits bm.quant_mode s.weights).reverse)))))) := by
      rw [symbolic_to_physical, if_neg (by rw [hbt]; decide),
        if_neg (by rw [hbt]; decide), if_neg (by rw [hbt]; decide), hbsd]
    rw [hP, hflen]
    rw [hflen] at hP
    simp only [physical_to_symbolic]
    rw [take_append_len (natToBits 11 s.block_mode) _ 11
      (natToBits_length 11 s.block_mode), bitsToNat_natToBits,
      Nat.mod_eq_of_lt (show s.block_mode < 2 ^ 11 by omega),
      if_neg hnve, hbsd]
    dsimp only []
    rw [drop_append_len (natToBits 11 s.block_mode) _ 11
      (natToBits_length 11 s.block_mode)]
    rw [take_append_len (natToBits 2 (s.partition_count - 1)) _ 2
      (natToBits_length 2 _), bitsToNat_natToBits,
      Nat.mod_eq_of_lt (show s.partition_count - 1 < 2 ^ 2 by omega),
      show s.partition_count - 1 + 1 = s.partition_count from by omega]
    rw [if_neg (show ¬(bm.is_dual_plane = true ∧ s.partition_count = 4) from by
      rintro ⟨h1, h2⟩
      have := hdual3 h1
      omega)]
    rw [if_neg (show ¬(get_ise_sequence_bitcount (wireWeightCount bm)
        bm.quant_mode < 24 ∨
        96 < get_ise_sequence_bitcount (wireWeightCount bm) bm.quant_mode)
      from by omega)]
    rw [drop_append_len (natToBits 2 (s.partition_count - 1)) _ 2
      (natToBits_length 2 _)]
    have hdec_ep : decodeIseBits s.quant_mode (intsOfFormats s.color_formats)
        (encodeIseBits s.quant_mode s.color_values) = s.color_values := by
      have h := decodeIseBits_encodeIseBits s.quant_mode s.color_values []
        hQM hcvrange
      rw [List.append_nil, hcvlen] at h
      exact h
    have hdec_w : decodeIseBits bm.quant_mode (wireWeightCount bm)
        (encodeIseBits bm.quant_mode s.weights) = s.weights := by
      have h := decodeIseBits_encodeIseBits bm.quant_mode s.weights []
        hq21 hwrange
      rw [List.append_nil, hwlen] at h
      exact h
    by_cases hpc2 : 2 ≤ s.partition_count
    · by_cases hdual : bm.is_dual_plane = true
      · simp only [if_pos hpc2, if_pos hdual] at hcq hp2c hfit hbudget ⊢
        obtain ⟨hpr1, hpr2, hpr3, hpr4, hpr5, hpr6, hpr7⟩ :=
          chain_parse (natToBits 11 s.block_mode)
            (natToBits 2 (s.partition_count - 1))
            (natToBits 10 s.partition_index) (formatsBits s.color_formats)
            (encodeIseBits s.quant_mode s.color_values)
            (List.replicate
              (128 - get_ise_sequence_bitcount (wireWeightCount bm) bm.quant_mode - 2 -
                (13 + 10 + 4 * s.partition_count) -
                (encodeIseBits s.quant_mode s.color_values).length) false)
            (natToBits 2 s.plane2_component.toNat)
            ((encodeIseBits bm.quant_mode s.weights).reverse) 10 2
            (get_ise_sequence_bitcount (wireWeightCount bm) bm.quant_mode)
            (natToBits_length _ _) (natToBits_length _ _)
            (natToBits_length _ _) (natToBits_length _ _)
            (by rw [List.length_reverse, hwenc])
            (by simp only [List.length_replicate, formatsBits_length, hflen,
                natToBits_length]
                omega)
        rw [hpr4, hpr5, bitsToNat_natToBits,
          Nat.mod_eq_of_lt (show s.partition_index < 2 ^ 10 by omega),
          formatsBits_readback s.color_formats _ s.partition_count
            hflen.symm hfrange, hcq]
        dsimp only []
        rw [drop_append_len (formatsBits s.color_formats) _
            (4 * s.partition_count) (by rw [formatsBits_length, hflen]),
          take_append_len _ _ _ hep, hdec_ep, hpr6, hpr7,
          List.reverse_reverse, hdec_w, bitsToNat_natToBits,
          Nat.mod_eq_of_lt (show s.plane2_component.toNat < 2 ^ 2 by omega),
          Int.toNat_of_nonneg hp2c.1, hbt]
      · simp only [if_pos hpc2, if_neg hdual] at hcq hp2c hfit hbudget ⊢
        obtain ⟨hpr1, hpr2, hpr3, hpr4, hpr5, hpr6, hpr7⟩ :=
          chain_parse (natToBits 11 s.block_mode)
            (natToBits 2 (s.partition_count - 1))
            (natToBits 10 s.partition_index) (formatsBits s.color_formats)
            (encodeIseBits s.quant_mode s.color_values)
            (List.replicate
              (128 - get_ise_sequence_bitcount (wireWeightCount bm) bm.quant_mode - 0 -
                (13 + 10 + 4 * s.partition_count) -
                (encodeIseBits s.quant_mode s.color_values).length) false)
            [] ((encodeIseBits bm.quant_mode s.weights).reverse) 10 0
            (get_ise_sequence_bitcount (wireWeightCount bm) bm.quant_mode)
            (natToBits_length _ _) (natToBits_length _ _)
            (natToBits_length _ _) rfl
            (by rw [List.length_reverse, hwenc])
            (by simp only [List.length_replicate, formatsBits_length, hflen,
                natToBits_length]
                omega)
        rw [hpr4, hpr5, bitsToNat_natToBits,
          Nat.mod_eq_of_lt (show s.partition_index < 2 ^ 10 by omega),
          formatsBits_readback s.color_formats _ s.partition_count
            hflen.symm hfrange, hcq]
        dsimp only []
        rw [drop_append_len (formatsBits s.color_formats) _
            (4 * s.partition_count) (by rw [formatsBits_length, hflen]),
          take_append_len _ _ _ hep, hdec_ep, hpr7,
          List.reverse_reverse, hdec_w, hp2c, hbt]
    · by_cases hdual : bm.is_dual_plane = true
      · simp only [if_neg hpc2, if_pos hdual, List.nil_append] at hcq hp2c hfit hbudget ⊢
        obtain ⟨hpr1, hpr2, hpr3, hpr6, hpr7⟩ :=
          chain_parse7 (natToBits 11 s.block_mode)
            (natToBits 2 (s.partition_count - 1))
            (formatsBits s.color_formats)
            (encodeIseBits s.quant_mode s.color_values)
            (List.replicate
              (128 - get_ise_sequence_bitcount (wireWeightCount bm) bm.quant_mode - 2 -
                (13 + 0 + 4 * s.partition_count) -
                (encodeIseBits s.quant_mode s.color_values).length) false)
            (natToBits 2 s.plane2_component.toNat)
            ((encodeIseBits bm.quant_mode s.weights).reverse) 2
            (get_ise_sequence_bitcount (wireWeightCount bm) bm.quant_mode)
            (natToBits_length _ _) (natToBits_length _ _)
            (natToBits_length _ _)
            (by rw [List.length_reverse, hwenc])
            (by simp only [List.length_replicate, formatsBits_length, hflen,
                natToBits_length]
                omega)
        rw [formatsBits_readback s.color_formats _ s.partition_count
            hflen.symm hfrange, hcq]
        dsimp only []
        rw [drop_append_len (formatsBits s.color_formats) _
            (4 * s.partition_count) (by rw [formatsBits_length, hflen]),
          take_append_len _ _ _ hep, hdec_ep, hpr6, hpr7,
          List.reverse_reverse, hdec_w, bitsToNat_natToBits,
          Nat.mod_eq_of_lt (show s.plane2_component.toNat < 2 ^ 2 by omega),
          Int.toNat_of_nonneg hp2c.1, hbt]
      · simp only [if_neg hpc2, if_neg hdual, List.nil_append] at hcq hp2c hfit hbudget ⊢
        obtain ⟨hpr1, hpr2, hpr3, hpr6, hpr7⟩ :=
          chain_parse7 (natToBits 11 s.block_mode)
            (natToBits 2 (s.partition_count - 1))
            (formatsBits s.color_formats)
            (encodeIseBits s.quant_mode s.color_values)
            (List.replicate
              (128 - get_ise_sequence_bitcount (wireWeightCount bm) bm.quant_mode - 0 -
                (13 + 0 + 4 * s.partition_count) -
                (encodeIseBits s.quant_mode s.color_values).length) false)
            [] ((encodeIseBits bm.quant_mode s.weights).reverse) 0
            (get_ise_sequence_bitcount (wireWeightCount bm) bm.quant_mode)
            (natToBits_length _ _) (natToBits_length _ _) rfl
            (by rw [List.length_reverse, hwenc])
            (by simp only [List.length_replicate, formatsBits_length, hflen,
                natToBits_length]
                omega)
        simp only [List.nil_append] at hpr7
        rw [formatsBits_readback s.color_formats _ s.partition_count
            hflen.symm hfrange, hcq]
        dsimp only []
        rw [drop_append_len (formatsBits s.color_formats) _
            (4 * s.partition_count) (by rw [formatsBits_length, hflen]),
          take_append_len _ _ _ hep, hdec_ep, hpr7,
          List.reverse_reverse, hdec_w, hp2c, hbt]

/-- Writing two non-constant symbolic blocks that agree on every field the
writer reads produces the same physical block; `partition_index` is only
read for multi-partition blocks. -/
theorem symbolic_to_physical_nonconst_congr (bsd : Nat → Option bsd_mode_info)
    (s t : symbolic_compressed_block)
    (hbt : s.block_type = SYM_BTYPE_NONCONST)
    (hbt2 : t.block_type = SYM_BTYPE_NONCONST)
    (hbm : t.block_mode = s.block_mode)
    (hpc : t.partition_count = s.partition_count)
    (hpi : 2 ≤ s.partition_count → t.partition_index = s.partition_index)
    (hcf : t.color_formats = s.color_formats)
    (hqm : t.quant_mode = s.quant_mode)
    (hcv : t.color_values = s.color_values)
    (hp2 : t.plane2_component = s.plane2_component)
    (hw : t.weights = s.weights) :
    symbolic_to_physical bsd t = symbolic_to_physical bsd s := by
  simp only [symbolic_to_physical, hbt, hbt2,
    if_neg (show ¬(SYM_BTYPE_NONCONST = SYM_BTYPE_CONST_F16) from by decide),
    if_neg (show ¬(SYM_BTYPE_NONCONST = SYM_BTYPE_CONST_U16) from by decide),
    if_neg (show ¬(SYM_BTYPE_NONCONST = SYM_BTYPE_ERROR) from by decide),
    hbm, hpc, hcf, hqm, hcv, hp2, hw]
  by_cases hpc2 : 2 ≤ s.partition_count
  · simp only [if_pos hpc2, hpi hpc2]
  · simp only [if_neg hpc2]

/-- Field extraction from the constant-color block layout: a 64-bit
header followed by four 16-bit color channels. -/
theorem const_parse (H D0 D1 D2 D3 : List Bool)
    (hH : H.length = 64) (h0 : D0.length = 16) (h1 : D1.length = 16)
    (h2 : D2.length = 16) (h3 : D3.length = 16) :
    ((H ++ (D0 ++ (D1 ++ (D2 ++ D3)))).drop 64).take 16 = D0 ∧
    ((H ++ (D0 ++ (D1 ++ (D2 ++ D3)))).drop 80).take 16 = D1 ∧
    ((H ++ (D0 ++ (D1 ++ (D2 ++ D3)))).drop 96).take 16 = D2 ∧
    ((H ++ (D0 ++ (D1 ++ (D2 ++ D3)))).drop 112).take 16 = D3 ∧
    (H ++ (D0 ++ (D1 ++ (D2 ++ D3)))).take 11 = H.take 11 := by
  refine ⟨?_, ?_, ?_, ?_, ?_⟩
  · rw [drop_append_len _ _ _ hH, take_append_len _ _ _ h0]
  · have hre : H ++ (D0 ++ (D1 ++ (D2 ++ D3))) =
        (H ++ D0) ++ (D1 ++ (D2 ++ D3)) := by
      simp [List.append_assoc]
    rw [hre, drop_append_len _ _ 80 (by simp [hH, h0]),
      take_append_len _ _ _ h1]
  · have hre : H ++ (D0 ++ (D1 ++ (D2 ++ D3))) =
        (H ++ (D0 ++ D1)) ++ (D2 ++ D3) := by
      simp [List.append_assoc]
    rw [hre, drop_append_len _ _ 96 (by simp [hH, h0, h1]),
      take_append_len _ _ _ h2]
  · have hre : H ++ (D0 ++ (D1 ++ (D2 ++ D3))) =
        (H ++ (D0 ++ (D1 ++ D2))) ++ D3 := by
      simp [List.append_assoc]
    rw [hre, drop_append_len _ _ 112 (by simp [hH, h0, h1, h2]),
      ← h3, List.take_length]
  · rw [List.take_append_eq_append_take, hH]
    simp

/-- Decoding a written constant-color block recovers the block type from
the dynamic-range flag and the four colors truncated to 16 bits. -/
theorem p2s_constBlockBits (bsd : Nat → Option bsd_mode_info)
    (is_f16 : Bool) (color : List Nat) :
    physical_to_symbolic bsd (constBlockBits is_f16 color) =
      { errorBlock with
          block_type :=
            if is_f16 then SYM_BTYPE_CONST_F16 else SYM_BTYPE_CONST_U16
          constant_color :=
            [color.getD 0 0 % 2 ^ 16, color.getD 1 0 % 2 ^ 16,
              color.getD 2 0 % 2 ^ 16, color.getD 3 0 % 2 ^ 16] } := by
  cases is_f16 with
  | false =>
    have hB : constBlockBits false color =
        (natToBits 9 508 ++
            ([false] ++ (natToBits 2 3 ++ List.replicate 52 true))) ++
          (natToBits 16 (color.getD 0 0) ++ (natToBits 16 (color.getD 1 0) ++
            (natToBits 16 (color.getD 2 0) ++
              natToBits 16 (color.getD 3 0)))) := by
      simp [constBlockBits, List.append_assoc]
    obtain ⟨hp0, hp1, hp2, hp3, hp11⟩ := const_parse
      (natToBits 9 508 ++
        ([false] ++ (natToBits 2 3 ++ List.replicate 52 true)))
      (natToBits 16 (color.getD 0 0)) (natToBits 16 (color.getD 1 0))
      (natToBits 16 (color.getD 2 0)) (natToBits 16 (color.getD 3 0))
      (by decide) (natToBits_length _ _) (natToBits_length _ _)
      (natToBits_length _ _) (natToBits_length _ _)
    rw [hB]
    simp only [physical_to_symbolic]
    rw [hp11,
      show bitsToNat ((natToBits 9 508 ++
          ([false] ++ (natToBits 2 3 ++ List.replicate 52 true))).take 11) =
        1532 from by decide,
      if_pos (show (1532 : Nat) % 512 = 508 from by decide),
      hp0, hp1, hp2, hp3]
    simp only [bitsToNat_natToBits]
    rfl
  | true =>
    have hB : constBlockBits true color =
        (natToBits 9 508 ++
            ([true] ++ (natToBits 2 3 ++ List.replicate 52 true))) ++
          (natToBits 16 (color.getD 0 0) ++ (natToBits 16 (color.getD 1 0) ++
            (natToBits 16 (color.getD 2 0) ++
              natToBits 16 (color.getD 3 0)))) := by
      simp [constBlockBits, List.append_assoc]
    obtain ⟨hp0, hp1, hp2, hp3, hp11⟩ := const_parse
      (natToBits 9 508 ++
        ([true] ++ (natToBits 2 3 ++ List.replicate 52 true)))
      (natToBits 16 (color.getD 0 0)) (natToBits 16 (color.getD 1 0))
      (natToBits 16 (color.getD 2 0)) (natToBits 16 (color.getD 3 0))
      (by decide) (natToBits_length _ _) (natToBits_length _ _)
      (natToBits_length _ _) (natToBits_length _ _)
    rw [hB]
    simp only [physical_to_symbolic]
    rw [hp11,
      show bitsToNat ((natToBits 9 508 ++
          ([true] ++ (natToBits 2 3 ++ List.replicate 52 true))).take 11) =
        2044 from by decide,
      if_pos (show (2044 : Nat) % 512 = 508 from by decide),
      hp0, hp1, hp2, hp3]
    simp only [bitsToNat_natToBits]

/-- Truncating the four channels to 16 bits does not change the written
constant-color block: the writer only keeps the low 16 bits anyway. -/
theorem constBlockBits_mod (f : Bool) (color : List Nat) :
    constBlockBits f
        [color.getD 0 0 % 2 ^ 16, color.getD 1 0 % 2 ^ 16,
          color.getD 2 0 % 2 ^ 16, color.getD 3 0 % 2 ^ 16] =
      constBlockBits f color := by
  show natToBits 9 508 ++ [f] ++ natToBits 2 3 ++ List.replicate 52 true ++
      (natToBits 16 (color.getD 0 0 % 2 ^ 16) ++
        natToBits 16 (color.getD 1 0 % 2 ^ 16) ++
        natToBits 16 (color.getD 2 0 % 2 ^ 16) ++
        natToBits 16 (color.getD 3 0 % 2 ^ 16)) = _
  simp only [natToBits_mod]
  rfl

/-- Writing a fp16 constant-color symbolic block emits the fp16
void-extent pattern with its stored color. -/
theorem s2p_const_f16 (bsd : Nat → Option bsd_mode_info)
    (scb : symbolic_compressed_block)
    (h : scb.block_type = SYM_BTYPE_CONST_F16) :
    symbolic_to_physical bsd scb = constBlockBits true scb.constant_color :=
  by rw [symbolic_to_physical, if_pos h]

/-- Writing a unorm16 constant-color symbolic block emits the unorm16
void-extent pattern with its stored color. -/
theorem s2p_const_u16 (bsd : Nat → Option bsd_mode_info)
    (scb : symbolic_compressed_block)
    (h : scb.block_type = SYM_BTYPE_CONST_U16) :
    symbolic_to_physical bsd scb = constBlockBits false scb.constant_color :=
  by rw [symbolic_to_physical, if_neg (by rw [h]; decide), if_pos h]

/-- Re-encoding the decoded block reproduces the physical block for the
constant-color and error symbolic blocks (the void-extent family). -/
theorem p2s_s2p_const (bsd : Nat → Option bsd_mode_info)
    (s : symbolic_compressed_block)
    (h : s.block_type = SYM_BTYPE_CONST_F16 ∨
      s.block_type = SYM_BTYPE_CONST_U16 ∨
      s.block_type = SYM_BTYPE_ERROR) :
    symbolic_to_physical bsd
        (physical_to_symbolic bsd (symbolic_to_physical bsd s)) =
      symbolic_to_physical bsd s := by
  rcases h with h | h | h
  · have h1 : symbolic_to_physical bsd s =
        constBlockBits true s.constant_color := s2p_const_f16 bsd s h
    rw [h1, p2s_constBlockBits]
    exact (s2p_const_f16 bsd _ rfl).trans
      (constBlockBits_mod true s.constant_color)
  · have h1 : symbolic_to_physical bsd s =
        constBlockBits false s.constant_color := s2p_const_u16 bsd s h
    rw [h1, p2s_constBlockBits]
    exact (s2p_const_u16 bsd _ rfl).trans
      (constBlockBits_mod false s.constant_color)
  · have h1 : symbolic_to_physical bsd s =
        constBlockBits false [65535, 0, 65535, 65535] := by
      rw [symbolic_to_physical, if_neg (by rw [h]; decide),
        if_neg (by rw [h]; decide), if_pos h]
    rw [h1, p2s_constBlockBits]
    exact (s2p_const_u16 bsd _ rfl).trans
      (constBlockBits_mod false [65535, 0, 65535, 65535])

/-- C1 (corrected): round-trip of the block transformer.  For every
non-constant symbolic block producible by the encoder (`producible`, with
the single-partition convention `partition_index = 0`),
`physical_to_symbolic (symbolic_to_physical s)` agrees with `s` on all
semantic fields (block_mode, partition_index, color_formats, color_values,
weights).  The reverse direction holds for every physical block the
writer can emit: re-encoding the decoded symbolic block reproduces the
physical block whenever it was written by `symbolic_to_physical` from any
encoder-emittable symbolic block — a producible non-constant block, a
constant-color block (either dynamic range), or an error block.  An
arbitrary non-error 16-byte block need not round-trip (see the
counterexample: non-canonical filler bits are discarded by the decode). -/
theorem symbolic_physical_round_trip (bsd : Nat → Option bsd_mode_info)
    (s : symbolic_compressed_block)
    (hv : (producible bsd s ∧
        (s.partition_count = 1 → s.partition_index = 0)) ∨
      s.block_type = SYM_BTYPE_CONST_F16 ∨
      s.block_type = SYM_BTYPE_CONST_U16 ∨
      s.block_type = SYM_BTYPE_ERROR) :
    (producible bsd s →
      (s.partition_count = 1 → s.partition_index = 0) →
      (physical_to_symbolic bsd (symbolic_to_physical bsd s)).block_mode =
          s.block_mode ∧
        (physical_to_symbolic bsd
            (symbolic_to_physical bsd s)).partition_index =
          s.partition_index ∧
        (physical_to_symbolic bsd
            (symbolic_to_physical bsd s)).color_formats =
          s.color_formats ∧
        (physical_to_symbolic bsd
            (symbolic_to_physical bsd s)).color_values =
          s.color_values ∧
        (physical_to_symbolic bsd (symbolic_to_physical bsd s)).weights =
          s.weights) ∧
    symbolic_to_physical bsd
        (physical_to_symbolic bsd (symbolic_to_physical bsd s)) =
      symbolic_to_physical bsd s := by
  constructor
  · intro hp hpi1
    have h := p2s_s2p_eq bsd s hp
    obtain ⟨hbt, _, _, hpcl, _⟩ := hp
    rw [h]
    refine ⟨rfl, ?_, rfl, rfl, rfl⟩
    show (if 2 ≤ s.partition_count then s.partition_index else 0) =
      s.partition_index
    by_cases hpc2 : 2 ≤ s.partition_count
    · rw [if_pos hpc2]
    · rw [if_neg hpc2, hpi1 (by omega)]
  · rcases hv with ⟨hp, _⟩ | h | h | h
    · have h := p2s_s2p_eq bsd s hp
      obtain ⟨hbt, _⟩ := hp
      rw [h]
      exact symbolic_to_physical_nonconst_congr bsd s _ hbt hbt rfl rfl
        (fun h2 => if_pos h2) rfl rfl rfl rfl rfl
    · exact p2s_s2p_const bsd s (Or.inl h)
    · exact p2s_s2p_const bsd s (Or.inr (Or.inl h))
    · exact p2s_s2p_const bsd s (Or.inr (Or.inr h))

/-- Counterexample to the second direction of C1 as stated: the physical
block with the void-extent marker `0x1FC` in its low 9 bits and every
other bit zero decodes to a non-error constant-color block, but
re-encoding writes the canonical void-extent pattern — reserved `11` bits
and all-ones extent coordinates — so the result differs from the
original block. -/
theorem physical_round_trip_counterexample :
    (physical_to_symbolic (fun _ => none)
        (natToBits 16 508 ++ List.replicate 112 false)).block_type ≠
      SYM_BTYPE_ERROR ∧
    symbolic_to_physical (fun _ => none)
        (physical_to_symbolic (fun _ => none)
          (natToBits 16 508 ++ List.replicate 112 false)) ≠
      natToBits 16 508 ++ List.replicate 112 false := by
  decide

/-- A concrete one-mode block size descriptor for the round-trip witness:
raw mode 100 decimates to 16 weights at QUANT_8, single plane. -/
def bsdW : Nat → Option bsd_mode_info :=
  fun m => if m = 100 then some ⟨16, 5, false⟩ else none

/-- A concrete producible symbolic block for the round-trip witness. -/
def sW : symbolic_compressed_block :=
  { block_type := SYM_BTYPE_NONCONST
    partition_count := 1
    color_formats_matched := false
    plane2_component := -1
    block_mode := 100
    partition_index := 0
    color_formats := [8]
    quant_mode := 20
    constant_color := []
    color_values := [10, 250, 3, 40, 5, 60]
    weights := [0, 1, 2, 3, 4, 5, 6, 7, 7, 6, 5, 4, 3, 2, 1, 0] }

theorem sW_producible : producible bsdW sW := by
  unfold producible
  simp only [bsdW, sW, if_true]
  decide

/-- Witness for C1: the concrete single-partition block `sW` under the
one-mode descriptor `bsdW` round-trips through the physical encoding. -/
theorem symbolic_physical_round_trip_witness :
    ((physical_to_symbolic bsdW (symbolic_to_physical bsdW sW)).block_mode =
        sW.block_mode ∧
      (physical_to_symbolic bsdW
          (symbolic_to_physical bsdW sW)).partition_index =
        sW.partition_index ∧
      (physical_to_symbolic bsdW
          (symbolic_to_physical bsdW sW)).color_formats =
        sW.color_formats ∧
      (physical_to_symbolic bsdW
          (symbolic_to_physical bsdW sW)).color_values =
        sW.color_values ∧
      (physical_to_symbolic bsdW (symbolic_to_physical bsdW sW)).weights =
        sW.weights) ∧
    symbolic_to_physical bsdW
        (physical_to_symbolic bsdW (symbolic_to_physical bsdW sW)) =
      symbolic_to_physical bsdW sW :=
  ⟨(symbolic_physical_round_trip bsdW sW
        (Or.inl ⟨sW_producible, fun _ => rfl⟩)).1 sW_producible
      (fun _ => rfl),
    (symbolic_physical_round_trip bsdW sW
        (Or.inl ⟨sW_producible, fun _ => rfl⟩)).2⟩

/- ## C4: decode tolerance and the error sentinel -/

/-- A decompressed texel channel: either a finite value or a NaN, so the
HDR error sentinel is representable exactly. -/
inductive FVal where
  | nan : FVal
  | val : ℚ → FVal
deriving DecidableEq

/-- Modelled from the spec: the profile-specific sentinel color the
decompressor writes for error blocks — NaN on HDR profiles, opaque
magenta (1, 0, 1, 1) on LDR profiles. -/
def sentinelColor (is_hdr : Bool) : FVal × FVal × FVal × FVal :=
  if is_hdr then (FVal.nan, FVal.nan, FVal.nan, FVal.nan)
  else (FVal.val 1, FVal.val 0, FVal.val 1, FVal.val 1)

/-- Modelled from the spec: the decompressor's error path — an error
symbolic block short-circuits before any other field is consulted and
every texel receives the profile sentinel.  Decoding of well-formed
blocks is outside this claim and left unevaluated (`none`). -/
def decompress_texel (is_hdr : Bool) (scb : symbolic_compressed_block)
    (texel : Nat) : Option (FVal × FVal × FVal × FVal) :=
  if scb.block_type = SYM_BTYPE_ERROR then some (sentinelColor is_hdr)
  else none

/-- C4: `physical_to_symbolic` tolerates every possible input block: the
output always carries one of the four block types; a non-void-extent
block mode whose packed index is BAD decodes to the error block; a
dual-plane mode paired with a 4-partition field (inconsistent partition
count) decodes to the error block; a mode whose weight budget falls
outside 24..96 bits decodes to the error block; and decompressing any
error-typed output yields the profile-specific sentinel (NaN for HDR,
magenta for LDR) at every texel. -/
theorem physical_to_symbolic_tolerant (bsd : Nat → Option bsd_mode_info)
    (p : List Bool) (is_hdr : Bool) (texel : Nat) :
    ((physical_to_symbolic bsd p).block_type = SYM_BTYPE_ERROR ∨
      (physical_to_symbolic bsd p).block_type = SYM_BTYPE_CONST_F16 ∨
      (physical_to_symbolic bsd p).block_type = SYM_BTYPE_CONST_U16 ∨
      (physical_to_symbolic bsd p).block_type = SYM_BTYPE_NONCONST) ∧
    (bitsToNat (p.take 11) % 512 ≠ 508 →
      (bsd (bitsToNat (p.take 11)) = none →
        physical_to_symbolic bsd p = errorBlock) ∧
      (∀ bm, bsd (bitsToNat (p.take 11)) = some bm →
        bm.is_dual_plane = true → bitsToNat ((p.drop 11).take 2) + 1 = 4 →
        physical_to_symbolic bsd p = errorBlock) ∧
      (∀ bm, bsd (bitsToNat (p.take 11)) = some bm →
        (get_ise_sequence_bitcount (wireWeightCount bm) bm.quant_mode < 24 ∨
          96 < get_ise_sequence_bitcount (wireWeightCount bm)
            bm.quant_mode) →
        physical_to_symbolic bsd p = errorBlock)) ∧
    ((physical_to_symbolic bsd p).block_type = SYM_BTYPE_ERROR →
      decompress_texel is_hdr (physical_to_symbolic bsd p) texel =
        some (sentinelColor is_hdr)) := by
  refine ⟨?_, ?_, fun h => by rw [decompress_texel, if_pos h]⟩
  · simp only [physical_to_symbolic]
    repeat' split
    all_goals first
      | (left; rfl)
      | (right; left; rfl)
      | (right; right; left; rfl)
      | (right; right; right; rfl)
  · intro h508
    refine ⟨?_, ?_, ?_⟩
    · intro hb
      simp only [physical_to_symbolic]
      rw [if_neg h508, hb]
    · intro bm hb hdual hpc4
      simp only [physical_to_symbolic]
      rw [if_neg h508, hb]
      dsimp only []
      rw [if_pos ⟨hdual, hpc4⟩]
    · intro bm hb hwr
      simp only [physical_to_symbolic]
      rw [if_neg h508, hb]
      dsimp only []
      by_cases hd4 : bm.is_dual_plane = true ∧
          bitsToNat ((p.drop 11).take 2) + 1 = 4
      · rw [if_pos hd4]
      · rw [if_neg hd4, if_pos hwr]

/-- Witness for C4: the all-zero block under an empty descriptor decodes
to the error block, and an LDR decompress of it yields opaque magenta. -/
theorem physical_to_symbolic_tolerant_witness :
    physical_to_symbolic (fun _ => none) (List.replicate 128 false) =
        errorBlock ∧
      decompress_texel false
          (physical_to_symbolic (fun _ => none) (List.replicate 128 false))
          0 =
        some (sentinelColor false) :=
  ⟨((physical_to_symbolic_tolerant (fun _ => none)
        (List.replicate 128 false) false 0).2.1 (by decide)).1 rfl,
    (physical_to_symbolic_tolerant (fun _ => none)
        (List.replicate 128 false) false 0).2.2 (by decide)⟩

/- ## C9: deterministic candidate selection and tie-breaking -/

/-- One trial encoding examined by the block compressor: its squared
error and its search coordinates — packed block-mode index, partition
seed, endpoint format ordinal (spec §8). -/
structure candidate where
  errorval : ℚ
  mode_idx : Nat
  seed : Nat
  fmt : Nat
deriving DecidableEq

/-- The lexicographic search key of a candidate. -/
def lexKey (c : candidate) : Nat × Nat × Nat := (c.mode_idx, c.seed, c.fmt)

/-- Strict lexicographic order on search keys: lower packed block-mode
index first, then lower partition seed, then lower endpoint format
ordinal. -/
def lexLt (x y : Nat × Nat × Nat) : Prop :=
  x.1 < y.1 ∨ (x.1 = y.1 ∧ (x.2.1 < y.2.1 ∨ (x.2.1 = y.2.1 ∧ x.2.2 < y.2.2)))

instance (x y : Nat × Nat × Nat) : Decidable (lexLt x y) := by
  unfold lexLt
  infer_instance

/-- Modelled from the spec: §8 — the compressor keeps the current best
candidate and replaces it only on strictly smaller error
(`errorval < best_errorval`), so on equal error the candidate tried
first wins. -/
def pickBest : List candidate → Option candidate
  | [] => none
  | c :: cs =>
    match pickBest cs with
    | none => some c
    | some d => if d.errorval < c.errorval then some d else some c

/-- Modelled from the spec: §8 — `compress_block` (declared
astcenc_internal.h:2206 without a body) evaluates its trial candidates in
lexicographic (mode, seed, format) order, keeps the best, and emits the
physical encoding of the winner's symbolic block (the error block when
there are no candidates). -/
def compress_block (bsd : Nat → Option bsd_mode_info)
    (toScb : candidate → symbolic_compressed_block)
    (cands : List candidate) : List Bool :=
  match pickBest cands with
  | none => symbolic_to_physical bsd errorBlock
  | some c => symbolic_to_physical bsd (toScb c)

theorem pickBest_cons_ne_none (a : candidate) (l : List candidate) :
    pickBest (a :: l) ≠ none := by
  simp only [pickBest]
  cases pickBest l with
  | none => simp
  | some d =>
    by_cases h : d.errorval < a.errorval <;> simp [h]

theorem pickBest_sound (l : List candidate) (c : candidate)
    (h : pickBest l = some c) :
    c ∈ l ∧ ∀ d ∈ l, c.errorval ≤ d.errorval := by
  induction l generalizing c with
  | nil => simp [pickBest] at h
  | cons a rest ih =>
    simp only [pickBest] at h
    cases hr : pickBest rest with
    | none =>
      rw [hr] at h
      obtain rfl : a = c := by simpa using h
      cases rest with
      | nil => exact ⟨by simp, by simp⟩
      | cons b bs => exact absurd hr (pickBest_cons_ne_none b bs)
    | some d0 =>
      rw [hr] at h
      dsimp only [] at h
      obtain ⟨hd0mem, hd0min⟩ := ih d0 hr
      by_cases hlt : d0.errorval < a.errorval
      · rw [if_pos hlt] at h
        obtain rfl : d0 = c := by simpa using h
        refine ⟨List.mem_cons_of_mem _ hd0mem, ?_⟩
        intro x hx
        rcases List.mem_cons.mp hx with rfl | hx
        · exact le_of_lt hlt
        · exact hd0min x hx
      · rw [if_neg hlt] at h
        obtain rfl : a = c := by simpa using h
        refine ⟨List.mem_cons_self _ _, ?_⟩
        intro x hx
        rcases List.mem_cons.mp hx with rfl | hx
        · exact le_rfl
        · exact le_trans (not_lt.mp hlt) (hd0min x hx)

theorem pickBest_tie_break (l : List candidate) (c : candidate)
    (hs : l.Pairwise (fun a b => lexLt (lexKey a) (lexKey b)))
    (h : pickBest l = some c) :
    ∀ d ∈ l, d.errorval = c.errorval →
      d = c ∨ lexLt (lexKey c) (lexKey d) := by
  induction l generalizing c with
  | nil => simp [pickBest] at h
  | cons a rest ih =>
    simp only [pickBest] at h
    rw [List.pairwise_cons] at hs
    obtain ⟨ha, hrest⟩ := hs
    cases hr : pickBest rest with
    | none =>
      rw [hr] at h
      obtain rfl : a = c := by simpa using h
      cases rest with
      | nil =>
        intro d hd _
        rcases List.mem_cons.mp hd with rfl | hd
        · exact Or.inl rfl
        · simp at hd
      | cons b bs => exact absurd hr (pickBest_cons_ne_none b bs)
    | some d0 =>
      rw [hr] at h
      dsimp only [] at h
      obtain ⟨hd0mem, hd0min⟩ := pickBest_sound rest d0 hr
      by_cases hlt : d0.errorval < a.errorval
      · rw [if_pos hlt] at h
        obtain rfl : d0 = c := by simpa using h
        intro d hd he
        rcases List.mem_cons.mp hd with rfl | hd
        · exact absurd hlt (by rw [he]; exact lt_irrefl _)
        · exact ih _ hrest hr d hd he
      · rw [if_neg hlt] at h
        obtain rfl : a = c := by simpa using h
        intro d hd _
        rcases List.mem_cons.mp hd with rfl | hd
        · exact Or.inl rfl
        · exact Or.inr (ha d hd)

/-- C9: block compression is deterministic and breaks search ties by
search order.  In the candidate-selection model of `compress_block`, the
output physical block is a function of the winning candidate; the winner
is a member of the candidate list attaining the minimal error; and when
the candidates are tried in strictly increasing lexicographic
(packed block-mode index, partition seed, endpoint format) order, every
other candidate tying the minimal error loses to the winner's
lexicographically smaller key. -/
theorem compress_block_deterministic (bsd : Nat → Option bsd_mode_info)
    (toScb : candidate → symbolic_compressed_block)
    (cands : List candidate) (c : candidate)
    (hs : cands.Pairwise (fun a b => lexLt (lexKey a) (lexKey b)))
    (hpick : pickBest cands = some c) :
    compress_block bsd toScb cands =
        symbolic_to_physical bsd (toScb c) ∧
      c ∈ cands ∧
      (∀ d ∈ cands, c.errorval ≤ d.errorval) ∧
      (∀ d ∈ cands, d.errorval = c.errorval →
        d = c ∨ lexLt (lexKey c) (lexKey d)) := by
  obtain ⟨hmem, hmin⟩ := pickBest_sound cands c hpick
  refine ⟨?_, hmem, hmin, pickBest_tie_break cands c hs hpick⟩
  rw [compress_block, hpick]

/-- Candidate list for the C9 witness: sorted by search key, with an
error tie between the last two candidates. -/
def candsW : List candidate :=
  [⟨5, 0, 0, 0⟩, ⟨3, 1, 0, 0⟩, ⟨3, 1, 1, 0⟩]

/-- Witness for C9: on `candsW` the winner is the earlier of the two
tied candidates, the one with the smaller search key. -/
theorem compress_block_deterministic_witness :
    compress_block (fun _ => none) (fun _ => errorBlock) candsW =
        symbolic_to_physical (fun _ => none) errorBlock ∧
      (⟨3, 1, 0, 0⟩ : candidate) ∈ candsW ∧
      (∀ d ∈ candsW, (⟨3, 1, 0, 0⟩ : candidate).errorval ≤ d.errorval) ∧
      (∀ d ∈ candsW, d.errorval = (⟨3, 1, 0, 0⟩ : candidate).errorval →
        d = (⟨3, 1, 0, 0⟩ : candidate) ∨
          lexLt (lexKey (⟨3, 1, 0, 0⟩ : candidate)) (lexKey d)) :=
  compress_block_deterministic (fun _ => none) (fun _ => errorBlock) candsW
    ⟨3, 1, 0, 0⟩ (by decide) (by decide)

end Astc
